import Mathlib

/-!
# Verification of the duplicate-detection core (`src/core/duplicate_detector.py`)

Shallow embedding of the `DuplicateDetector` class: the similarity scorer
(`calculate_similarity`, which wraps `difflib.SequenceMatcher(None, a, b).ratio()`),
the three detection strategies, the group merger, the quality ranker and the
statistics aggregator.  Records are Python dicts in the source; they are embedded
as a structure whose `Option` fields model missing keys where key presence is
observable (`id`, `file_hash`, `duration`).  Python floats are modelled as exact
rationals, Python ints as `Int`, and Python string methods (`lower`, `strip`)
as explicit ASCII functions.
-/

namespace MusicDup

/-- One file-metadata dictionary (a `FileRecord`).  `id` is `none` when the key
is absent (`file.get('id')` returns `None`); similarly for `file_hash` and
`duration` (the detector tests `'duration' in file`). -/
structure FileRecord where
  id : Option Int
  file_path : String
  file_size : Int
  file_hash : Option String
  artist : String
  title : String
  album : String
  genre : String
  duration : Option ℚ
  bitrate : Int
deriving DecidableEq, Repr

/-! ## Python string primitives -/

/-- ASCII model of `str.lower` on one character. -/
def pyCharLower (c : Char) : Char :=
  if 65 ≤ c.toNat ∧ c.toNat ≤ 90 then Char.ofNat (c.toNat + 32) else c

/-- ASCII model of `str.lower`. -/
def pyLower (s : String) : String :=
  ⟨s.data.map pyCharLower⟩

/-- Model of `str.strip`: remove leading and trailing whitespace. -/
def pyStrip (s : String) : String :=
  ⟨((s.data.dropWhile Char.isWhitespace).reverse.dropWhile Char.isWhitespace).reverse⟩

/-! ## `difflib.SequenceMatcher` (with `isjunk=None`, `autojunk=True`)

`calculate_similarity` calls `SequenceMatcher(None, str1.lower(), str2.lower()).ratio()`.
With `isjunk=None` the junk set `bjunk` is empty, so the two junk-extension loops
of `find_longest_match` never fire and are omitted; the `autojunk` heuristic
(purging "popular" elements from `b2j` when `len(b) >= 200`) is kept. -/

/-- Ascending list of indices at which `c` occurs, mirroring
`for i, elt in enumerate(b): b2j.setdefault(elt, []).append(i)`. -/
def occIdxAux (c : Char) : List Char → Nat → List Nat
  | [], _ => []
  | x :: xs, i =>
    if x = c then i :: occIdxAux c xs (i + 1) else occIdxAux c xs (i + 1)

def occIdx (b : List Char) (c : Char) : List Nat := occIdxAux c b 0

/-- The autojunk test: `len(b) >= 200` and the element occurs more than
`len(b) // 100 + 1` times. -/
def isPopular (b : List Char) (c : Char) : Bool :=
  decide (200 ≤ b.length) && decide (b.length / 100 + 1 < (occIdx b c).length)

/-- `b2j.get(c, [])` after popular elements have been purged. -/
def b2j (b : List Char) (c : Char) : List Nat :=
  if isPopular b c then [] else occIdx b c

/-- The inner `for j in b2j.get(a[i], nothing)` loop of `find_longest_match`:
threads `newj2len` (as a function) and the current best `(besti, bestj, bestsize)`.
Python's `j2len.get(j-1, 0)` reads key `-1` (hence `0`) when `j = 0`, which the
`if j = 0` guard reproduces.  `j >= bhi` is a `break`. -/
def jScan (i blo bhi : Nat) (get : Nat → Nat) :
    List Nat → (Nat → Nat) → Nat × Nat × Nat → (Nat → Nat) × (Nat × Nat × Nat)
  | [], new, best => (new, best)
  | j :: js, new, best =>
    if j < blo then jScan i blo bhi get js new best
    else if bhi ≤ j then (new, best)
    else
      let k := (if j = 0 then 0 else get (j - 1)) + 1
      let new1 : Nat → Nat := fun x => if x = j then k else new x
      let best1 := if best.2.2 < k then (i + 1 - k, j + 1 - k, k) else best
      jScan i blo bhi get js new1 best1

/-- The outer `for i in range(alo, ahi)` loop of `find_longest_match`. -/
def iScan (a b : List Char) (blo bhi : Nat) :
    List Nat → (Nat → Nat) → Nat × Nat × Nat → Nat × Nat × Nat
  | [], _, best => best
  | i :: is, j2len, best =>
    let p := jScan i blo bhi j2len (b2j b (a.getD i ' ')) (fun _ => 0) best
    iScan a b blo bhi is p.1 p.2

/-- `while besti > alo and bestj > blo and a[besti-1] == b[bestj-1]` (the
non-junk backward extension; the junk variant is vacuous since `bjunk = ∅`).
Structural recursion on `besti`. -/
def extendBack (a b : List Char) (alo blo : Nat) :
    Nat → Nat → Nat → Nat × Nat × Nat
  | 0, bj, bs => (0, bj, bs)
  | bi + 1, bj, bs =>
    if alo ≤ bi ∧ blo < bj ∧ a.getD bi ' ' = b.getD (bj - 1) ' ' then
      extendBack a b alo blo bi (bj - 1) (bs + 1)
    else (bi + 1, bj, bs)

/-- `while besti+bestsize < ahi and bestj+bestsize < bhi and
a[besti+bestsize] == b[bestj+bestsize]: bestsize += 1`, with a fuel bound
(`ahi` steps always suffice since each step needs `besti + bs < ahi`). -/
def extendFwd (a b : List Char) (ahi bhi besti bestj : Nat) : Nat → Nat → Nat
  | 0, bs => bs
  | fuel + 1, bs =>
    if besti + bs < ahi ∧ bestj + bs < bhi ∧
        a.getD (besti + bs) ' ' = b.getD (bestj + bs) ' ' then
      extendFwd a b ahi bhi besti bestj fuel (bs + 1)
    else bs

/-- `find_longest_match(alo, ahi, blo, bhi)` for junk-free matching. -/
def findLongestMatch (a b : List Char) (alo ahi blo bhi : Nat) : Nat × Nat × Nat :=
  let best := iScan a b blo bhi (List.range' alo (ahi - alo)) (fun _ => 0) (alo, blo, 0)
  let back := extendBack a b alo blo best.1 best.2.1 best.2.2
  let size := extendFwd a b ahi bhi back.1 back.2.1 ahi back.2.2
  (back.1, back.2.1, size)

/-- Total size of all matching blocks found by `get_matching_blocks` over the
rectangle `a[alo:ahi] × b[blo:bhi]` (the queue in the source processes
independent rectangles, so the recursive form computes the same block set; the
final sort/collapse steps do not change the total).  Fuel decreases on each
recursive call; `len(a) + len(b) + 1` always suffices. -/
def matchTotal (a b : List Char) : Nat → Nat → Nat → Nat → Nat → Nat
  | 0, _, _, _, _ => 0
  | fuel + 1, alo, ahi, blo, bhi =>
    let m := findLongestMatch a b alo ahi blo bhi
    let i := m.1
    let j := m.2.1
    let k := m.2.2
    if k = 0 then 0
    else
      k + (if alo < i ∧ blo < j then matchTotal a b fuel alo i blo j else 0)
        + (if i + k < ahi ∧ j + k < bhi then matchTotal a b fuel (i + k) ahi (j + k) bhi else 0)

/-- `matches = sum(triple[-1] for triple in self.get_matching_blocks())`. -/
def matchSum (a b : List Char) : Nat :=
  matchTotal a b (a.length + b.length + 1) 0 a.length 0 b.length

/-- `_calculate_ratio(matches, len(a) + len(b))`. -/
def ratio (a b : List Char) : ℚ :=
  if a.length + b.length ≠ 0 then
    2 * (matchSum a b : ℚ) / ((a.length : ℚ) + (b.length : ℚ))
  else 1

/-- `DuplicateDetector.calculate_similarity`: `0.0` if either string is falsy,
else `SequenceMatcher(None, str1.lower(), str2.lower()).ratio()`. -/
def calculate_similarity (str1 str2 : String) : ℚ :=
  if str1 = "" ∨ str2 = "" then 0
  else ratio (pyLower str1).data (pyLower str2).data

/-! ## Metadata-fuzzy strategy (`find_duplicates_by_metadata`) -/

/-- A metadata comparison field name (`compare_fields` entries). -/
inductive MetaField
  | artist
  | title
  | album
  | genre
deriving DecidableEq, Repr

def FileRecord.getField (f : FileRecord) : MetaField → String
  | .artist => f.artist
  | .title => f.title
  | .album => f.album
  | .genre => f.genre

def defaultFields : List MetaField := [.artist, .title, .album]

/-- `str(file.get(field, '')).strip().lower()`. -/
def metaFieldVal (f : FileRecord) (fld : MetaField) : String :=
  pyLower (pyStrip (f.getField fld))

/-- The `for field in compare_fields` loop with its two early `break`s:
empty value on either side, or similarity below the tolerance. -/
def fieldsMatch (tol : ℚ) (f1 f2 : FileRecord) : List MetaField → Bool
  | [] => true
  | fld :: rest =>
    let val1 := metaFieldVal f1 fld
    let val2 := metaFieldVal f2 fld
    if val1 = "" ∨ val2 = "" then false
    else if calculate_similarity val1 val2 < tol then false
    else fieldsMatch tol f1 f2 rest

/-- The duration comparison of lines 91-96: only applies when both records
carry the `'duration'` key; rejects when `abs(duration1 - duration2) > 5`. -/
def durationOk (f1 f2 : FileRecord) : Bool :=
  match f1.duration, f2.duration with
  | some d1, some d2 => !decide (5 < |d1 - d2|)
  | _, _ => true

/-- The complete per-pair `is_duplicate` computation. -/
def isDuplicatePair (tol : ℚ) (fields : List MetaField) (f1 f2 : FileRecord) : Bool :=
  fieldsMatch tol f1 f2 fields && durationOk f1 f2

/-- The inner `for file2 in files[i+1:]` scan: returns the matched records (the
group minus its anchor) and the updated `processed_ids`.  A matched record's
`id` is inserted immediately, so later candidates with that id are skipped. -/
def scanCandidates (tol : ℚ) (fields : List MetaField) (f1 : FileRecord) :
    List FileRecord → Finset (Option Int) → List FileRecord × Finset (Option Int)
  | [], processed => ([], processed)
  | f2 :: rest, processed =>
    if f2.id ∈ processed then scanCandidates tol fields f1 rest processed
    else if isDuplicatePair tol fields f1 f2 then
      let r := scanCandidates tol fields f1 rest (insert f2.id processed)
      (f2 :: r.1, r.2)
    else scanCandidates tol fields f1 rest processed

/-- The outer `for i, file1 in enumerate(files)` loop.  A group is emitted only
when at least one match was found (`len(duplicates) > 1`), and only then is the
anchor's id marked processed. -/
def metaLoop (tol : ℚ) (fields : List MetaField) :
    List FileRecord → Finset (Option Int) → List (List FileRecord)
  | [], _ => []
  | f1 :: rest, processed =>
    if f1.id ∈ processed then metaLoop tol fields rest processed
    else
      let r := scanCandidates tol fields f1 rest processed
      if r.1.isEmpty then metaLoop tol fields rest r.2
      else (f1 :: r.1) :: metaLoop tol fields rest (insert f1.id r.2)

def find_duplicates_by_metadata (tol : ℚ) (files : List FileRecord)
    (compare_fields : List MetaField) : List (List FileRecord) :=
  metaLoop tol compare_fields files ∅

/-! ## Hash and size+duration strategies -/

/-- Append `f` to the dict entry for key `k`, creating the entry at the end on
first occurrence (Python dicts preserve insertion order). -/
def insertGroup {κ : Type} [DecidableEq κ] :
    List (κ × List FileRecord) → κ → FileRecord → List (κ × List FileRecord)
  | [], k, f => [(k, [f])]
  | (k1, g) :: rest, k, f =>
    if k1 = k then (k1, g ++ [f]) :: rest else (k1, g) :: insertGroup rest k f

/-- Build the grouping dict; records whose key is `none` are skipped. -/
def buildDict {κ : Type} [DecidableEq κ] (keyOf : FileRecord → Option κ) :
    List FileRecord → List (κ × List FileRecord) → List (κ × List FileRecord)
  | [], m => m
  | f :: rest, m =>
    match keyOf f with
    | none => buildDict keyOf rest m
    | some k => buildDict keyOf rest (insertGroup m k f)

/-- `file_data.get('file_hash')` followed by the truthiness test
`if not file_hash: continue` (`None` and `''` are falsy). -/
def truthyHash (f : FileRecord) : Option String :=
  match f.file_hash with
  | none => none
  | some h => if h = "" then none else some h

def find_duplicates_by_hash (files : List FileRecord) : List (List FileRecord) :=
  ((buildDict truthyHash files []).map Prod.snd).filter (fun g => decide (1 < g.length))

/-- Python `round`: round half to even. -/
def pyRound (q : ℚ) : Int :=
  let f := ⌊q⌋
  let r := q - (f : ℚ)
  if r < 1 / 2 then f
  else if 1 / 2 < r then f + 1
  else if f % 2 = 0 then f else f + 1

/-- `key = (file_size, round(duration))` with defaults `0`. -/
def sizeDurKey (f : FileRecord) : Option (Int × Int) :=
  some (f.file_size, pyRound (f.duration.getD 0))

def find_duplicates_by_size_and_duration (files : List FileRecord) :
    List (List FileRecord) :=
  ((buildDict sizeDurKey files []).map Prod.snd).filter (fun g => decide (1 < g.length))

/-! ## Group merger (`_merge_duplicate_groups`) -/

/-- `file_data.get('id')` filtered by truthiness, as in
`set(file_data.get('id') for file_data in group if file_data.get('id'))`:
a missing id (`None`) and the falsy id `0` are dropped. -/
def truthyId (f : FileRecord) : Option Int :=
  match f.id with
  | none => none
  | some v => if v = 0 then none else some v

/-- The set of truthy ids of one input group. -/
def groupIdSet (g : List FileRecord) : Finset Int :=
  g.foldl (fun s f => match truthyId f with | some v => insert v s | none => s) ∅

/-- `id_groups`: one id set per input group, empty sets dropped (`if ids`). -/
def idGroups (groups : List (List FileRecord)) : List (Finset Int) :=
  (groups.map groupIdSet).filter (fun s => decide (s ≠ ∅))

/-- One pass of the inner `for other in id_groups` loop: `current` absorbs every
set it overlaps (growing as it goes), the rest are kept in order; the flag
reports whether any merge happened. -/
def mergePass (cur : Finset Int) :
    List (Finset Int) → Finset Int × List (Finset Int) × Bool
  | [] => (cur, [], false)
  | s :: rest =>
    if (cur ∩ s).Nonempty then
      let r := mergePass (cur ∪ s) rest
      (r.1, r.2.1, true)
    else
      let r := mergePass cur rest
      (r.1, s :: r.2.1, r.2.2)

/-- The `while merged_any` loop, with fuel (each merging pass strictly shrinks
the remaining list, so `length + 1` passes always suffice). -/
def absorbFuel : Nat → Finset Int → List (Finset Int) → Finset Int × List (Finset Int)
  | 0, cur, l => (cur, l)
  | fuel + 1, cur, l =>
    let r := mergePass cur l
    if r.2.2 then absorbFuel fuel r.1 r.2.1 else (r.1, r.2.1)

def absorb (cur : Finset Int) (l : List (Finset Int)) : Finset Int × List (Finset Int) :=
  absorbFuel (l.length + 1) cur l

/-- The outer `while id_groups` loop: pop the first set, absorb everything
transitively overlapping it, emit, repeat. -/
def mergeSetsFuel : Nat → List (Finset Int) → List (Finset Int)
  | 0, _ => []
  | _ + 1, [] => []
  | fuel + 1, g :: rest =>
    let r := absorb g rest
    r.1 :: mergeSetsFuel fuel r.2

def mergeSets (l : List (Finset Int)) : List (Finset Int) :=
  mergeSetsFuel l.length l

/-- `file_data.get('id') in id_set` (a missing id is `None`, never a member). -/
def idInSet (f : FileRecord) (s : Finset Int) : Bool :=
  match f.id with
  | some v => decide (v ∈ s)
  | none => false

/-- Rehydration of one id partition: walk every record of every input group in
order, collecting those whose id lies in the set and are not yet collected. -/
def rehydrate (groups : List (List FileRecord)) (s : Finset Int) : List FileRecord :=
  groups.flatten.foldl
    (fun acc f => if idInSet f s ∧ f ∉ acc then acc ++ [f] else acc) []

def merge_duplicate_groups (groups : List (List FileRecord)) : List (List FileRecord) :=
  if groups = [] then []
  else
    ((mergeSets (idGroups groups)).map (rehydrate groups)).filter
      (fun g => decide (1 < g.length))

/-- `find_duplicates_combined`: concatenate the enabled strategies' groups and
merge (defaults: metadata and hash on, size off). -/
def find_duplicates_combined (tol : ℚ) (files : List FileRecord)
    (use_metadata use_hash use_size : Bool) : List (List FileRecord) :=
  let all_groups :=
    (if use_metadata then find_duplicates_by_metadata tol files defaultFields else [])
      ++ (if use_hash then find_duplicates_by_hash files else [])
      ++ (if use_size then find_duplicates_by_size_and_duration files else [])
  merge_duplicate_groups all_groups

/-! ## Quality ranker & selector -/

/-- The ranking key `(f.get('bitrate', 0), f.get('file_size', 0))`. -/
def qualityKey (f : FileRecord) : Int × Int := (f.bitrate, f.file_size)

/-- Python's lexicographic comparison of `(bitrate, file_size)` tuples. -/
def keyLe (x y : Int × Int) : Prop := x.1 < y.1 ∨ (x.1 = y.1 ∧ x.2 ≤ y.2)

instance (x y : Int × Int) : Decidable (keyLe x y) := by
  unfold keyLe
  infer_instance

/-- `sorted(group, key=qualityKey, reverse=reverse)`: a stable sort, descending
when `reverse` (equal keys keep their original relative order in both modes;
any stable sort by the same total preorder yields the same list as CPython's). -/
def pySortedByQuality (reverse : Bool) (l : List FileRecord) : List FileRecord :=
  if reverse then
    List.insertionSort (fun f g => keyLe (qualityKey g) (qualityKey f)) l
  else
    List.insertionSort (fun f g => keyLe (qualityKey f) (qualityKey g)) l

def filter_duplicates_by_quality (duplicate_group : List FileRecord)
    (keep_highest : Bool) : List FileRecord × List FileRecord :=
  if duplicate_group = [] then ([], [])
  else
    let sorted_files := pySortedByQuality keep_highest duplicate_group
    (sorted_files.take 1, sorted_files.drop 1)

def auto_select_duplicates_for_removal (duplicate_groups : List (List FileRecord))
    (keep_highest_quality : Bool) : List FileRecord :=
  duplicate_groups.foldl
    (fun acc g => acc ++ (filter_duplicates_by_quality g keep_highest_quality).2) []

/-! ## Statistics aggregator (`get_duplicate_statistics`) -/

structure DupStats where
  total_groups : Nat
  total_duplicates : Nat
  total_files : Int
  wasted_space_bytes : Int
  wasted_space_mb : ℚ
deriving DecidableEq, Repr

/-- `sorted(group, key=lambda f: f.get('file_size', 0), reverse=True)`. -/
def pySortedBySizeDesc (l : List FileRecord) : List FileRecord :=
  List.insertionSort (fun f g => g.file_size ≤ f.file_size) l

/-- Sum of `file_size` over `sorted_group[1:]` (all but the largest). -/
def wastedOfGroup (g : List FileRecord) : Int :=
  ((pySortedBySizeDesc g).drop 1).foldl (fun acc f => acc + f.file_size) 0

def get_duplicate_statistics (duplicate_groups : List (List FileRecord)) : DupStats :=
  let total_duplicates := (duplicate_groups.map List.length).sum
  let total_groups := duplicate_groups.length
  let wasted_space := duplicate_groups.foldl (fun acc g => acc + wastedOfGroup g) 0
  { total_groups := total_groups
    total_duplicates := total_duplicates
    total_files := (total_duplicates : Int) - (total_groups : Int)
    wasted_space_bytes := wasted_space
    wasted_space_mb := (wasted_space : ℚ) / (1024 * 1024) }

/-! ## Dynamically-typed fragment for the error-handling claim

The source annotates records as `Dict[str, Any]`, so individual field values can
be of any runtime type.  `PyVal` models the runtime values reaching the
arithmetic of lines 91-96 (`abs(duration1 - duration2) > 5`), and the operators
follow Python semantics: subtraction of non-numeric operands raises `TypeError`
rather than coercing to a default. -/

inductive PyVal
  | none
  | int (n : Int)
  | float (q : ℚ)
  | str (s : String)
deriving DecidableEq, Repr

/-- Python binary `-` on runtime values. -/
def pySub : PyVal → PyVal → Except String PyVal
  | .int m, .int n => .ok (.int (m - n))
  | .int m, .float q => .ok (.float ((m : ℚ) - q))
  | .float q, .int n => .ok (.float (q - (n : ℚ)))
  | .float p, .float q => .ok (.float (p - q))
  | _, _ => .error "TypeError: unsupported operand type for -"

/-- Python `abs` on runtime values. -/
def pyAbs : PyVal → Except String PyVal
  | .int n => .ok (.int |n|)
  | .float q => .ok (.float |q|)
  | _ => .error "TypeError: bad operand type for abs"

/-- Python `>` on runtime values (numeric comparison only). -/
def pyGtVal : PyVal → PyVal → Except String Bool
  | .int m, .int n => .ok (decide (n < m))
  | .int m, .float q => .ok (decide (q < (m : ℚ)))
  | .float q, .int n => .ok (decide ((n : ℚ) < q))
  | .float p, .float q => .ok (decide (q < p))
  | _, _ => .error "TypeError: unsupported comparison"

/-- Lines 92-95 of `find_duplicates_by_metadata` on runtime duration values:
`abs(duration1 - duration2) > 5`, executed when both records carry the key. -/
def durationCheckDyn (d1 d2 : PyVal) : Except String Bool := do
  let d ← pySub d1 d2
  let a ← pyAbs d
  pyGtVal a (.int 5)

/-! ## Concrete records used by counterexamples and witnesses -/

/-- A record with every optional key present and a given id / path. -/
def mkRec (i : Option Int) (p : String) : FileRecord :=
  { id := i, file_path := p, file_size := 100, file_hash := Option.none
    artist := "The Beatles", title := "Let It Be", album := "Let It Be"
    genre := "", duration := some 240, bitrate := 320 }

/-- A record with `file_size` only (for statistics examples). -/
def mkSized (p : String) (sz : Int) : FileRecord :=
  { id := some 1, file_path := p, file_size := sz, file_hash := Option.none
    artist := "", title := "", album := "", genre := ""
    duration := Option.none, bitrate := 0 }

def w1 : FileRecord := mkRec (some 1) "w1"
def w2 : FileRecord := mkRec (some 2) "w2"
def w3 : FileRecord := mkRec (some 3) "w3"
def w4 : FileRecord := mkRec (some 4) "w4"

/-- Two records lacking any id but sharing a file hash. -/
def nid1 : FileRecord := { mkRec Option.none "n1" with file_hash := some "abc" }
def nid2 : FileRecord := { mkRec Option.none "n2" with file_hash := some "abc" }

/-- Two distinct records carrying the same id and the same file hash. -/
def dup1 : FileRecord := { mkRec (some 7) "d1" with file_hash := some "dd" }
def dup2 : FileRecord := { mkRec (some 7) "d2" with file_hash := some "dd" }

/-- Ranking witnesses: different bitrates. -/
def q1 : FileRecord := { mkRec (some 1) "q1" with bitrate := 128 }
def q2 : FileRecord := { mkRec (some 2) "q2" with bitrate := 320 }

/-- Two records with distinct truthy ids sharing a file hash. -/
def hA : FileRecord := { mkRec (some 11) "hA" with file_hash := some "xyz" }
def hB : FileRecord := { mkRec (some 12) "hB" with file_hash := some "xyz" }

/-- A record whose id is the integer `0` (falsy in Python). -/
def z0 : FileRecord := mkRec (some 0) "z0"

/-- The three files of the statistics scenario: 10 MB, 5 MB, 3 MB. -/
def s10 : FileRecord := mkSized "s10" (10 * 1024 * 1024)
def s5 : FileRecord := mkSized "s5" (5 * 1024 * 1024)
def s3 : FileRecord := mkSized "s3" (3 * 1024 * 1024)

/-! ## Spec-side definitions (used to state the claims, compared against the
definitions above that were translated from the source) -/

/-- Sum of the `file_size` fields of a group. -/
def sumSizes (g : List FileRecord) : Int := (g.map FileRecord.file_size).sum

/-- The largest `file_size` in a group (`0` for an empty group). -/
def maxSize (g : List FileRecord) : Int := ((g.map FileRecord.file_size).max?).getD 0

/-- The spec's wording of the metadata pair-match test: for every configured
field both values are non-empty after trimming and their similarity is at least
the tolerance, and whenever both records carry a duration the absolute duration
difference is at most 5 seconds. -/
def specPairMatch (tol : ℚ) (fields : List MetaField) (f1 f2 : FileRecord) : Prop :=
  (∀ fld ∈ fields,
    pyStrip (f1.getField fld) ≠ "" ∧ pyStrip (f2.getField fld) ≠ "" ∧
      tol ≤ calculate_similarity (pyStrip (f1.getField fld)) (pyStrip (f2.getField fld))) ∧
  (∀ d1 d2 : ℚ, f1.duration = some d1 → f2.duration = some d2 → |d1 - d2| ≤ 5)

/-! ## Lemmas about the merger's set phase -/

/-- Union of a list of id sets. -/
def listUnion (l : List (Finset Int)) : Finset Int := l.foldr (· ∪ ·) ∅

theorem mem_listUnion {v : Int} {l : List (Finset Int)} :
    v ∈ listUnion l ↔ ∃ s ∈ l, v ∈ s := by
  induction l with
  | nil => simp [listUnion]
  | cons s rest ih => simp [listUnion, Finset.mem_union] at ih ⊢; rw [ih]

theorem listUnion_subset_listUnion {l1 l2 : List (Finset Int)}
    (h : ∀ s ∈ l1, s ∈ l2) : listUnion l1 ⊆ listUnion l2 := by
  intro v hv
  rw [mem_listUnion] at hv ⊢
  obtain ⟨s, hs, hvs⟩ := hv
  exact ⟨s, h s hs, hvs⟩

theorem disjoint_listUnion {c : Finset Int} {l : List (Finset Int)}
    (h : ∀ s ∈ l, Disjoint c s) : Disjoint c (listUnion l) := by
  induction l with
  | nil => simp [listUnion]
  | cons s rest ih =>
    simp only [listUnion, List.foldr_cons]
    exact Finset.disjoint_union_right.2
      ⟨h s (by simp), ih fun t ht => h t (by simp [ht])⟩

theorem mergePass_cur_subset (cur : Finset Int) (l : List (Finset Int)) :
    cur ⊆ (mergePass cur l).1 := by
  induction l generalizing cur with
  | nil => simp [mergePass]
  | cons s rest ih =>
    simp only [mergePass]
    split
    · exact fun v hv => ih (cur ∪ s) (Finset.mem_union_left _ hv)
    · exact ih cur

theorem mergePass_rest_mem (cur : Finset Int) (l : List (Finset Int)) :
    ∀ s ∈ (mergePass cur l).2.1, s ∈ l := by
  induction l generalizing cur with
  | nil => simp [mergePass]
  | cons s rest ih =>
    simp only [mergePass]
    split
    · intro t ht
      exact List.mem_cons_of_mem _ (ih (cur ∪ s) t ht)
    · intro t ht
      rcases List.mem_cons.1 ht with h | h
      · exact h ▸ List.mem_cons_self _ _
      · exact List.mem_cons_of_mem _ (ih cur t h)

theorem mergePass_cover (cur : Finset Int) (l : List (Finset Int)) :
    ∀ s ∈ l, s ⊆ (mergePass cur l).1 ∨ s ∈ (mergePass cur l).2.1 := by
  induction l generalizing cur with
  | nil => simp
  | cons s rest ih =>
    simp only [mergePass]
    split
    · intro t ht
      rcases List.mem_cons.1 ht with h | h
      · subst h
        exact Or.inl fun v hv =>
          mergePass_cur_subset (cur ∪ t) rest (Finset.mem_union_right _ hv)
      · exact ih (cur ∪ s) t h
    · intro t ht
      rcases List.mem_cons.1 ht with h | h
      · exact Or.inr (h ▸ List.mem_cons_self _ _)
      · rcases ih cur t h with h1 | h1
        · exact Or.inl h1
        · exact Or.inr (List.mem_cons_of_mem _ h1)

theorem mergePass_result_subset (cur : Finset Int) (l : List (Finset Int)) :
    (mergePass cur l).1 ⊆ cur ∪ listUnion l := by
  induction l generalizing cur with
  | nil => simp [mergePass]
  | cons s rest ih =>
    simp only [mergePass]
    split
    · intro v hv
      have := ih (cur ∪ s) hv
      rcases Finset.mem_union.1 this with h | h
      · rcases Finset.mem_union.1 h with h1 | h1
        · exact Finset.mem_union_left _ h1
        · refine Finset.mem_union_right _ ?_
          rw [mem_listUnion]
          exact ⟨s, by simp, h1⟩
      · refine Finset.mem_union_right _ ?_
        rw [mem_listUnion] at h ⊢
        obtain ⟨t, ht, hvt⟩ := h
        exact ⟨t, by simp [ht], hvt⟩
    · intro v hv
      have := ih cur hv
      rcases Finset.mem_union.1 this with h | h
      · exact Finset.mem_union_left _ h
      · refine Finset.mem_union_right _ ?_
        rw [mem_listUnion] at h ⊢
        obtain ⟨t, ht, hvt⟩ := h
        exact ⟨t, by simp [ht], hvt⟩

theorem mergePass_false (cur : Finset Int) (l : List (Finset Int))
    (h : (mergePass cur l).2.2 = false) :
    (mergePass cur l).1 = cur ∧ (mergePass cur l).2.1 = l ∧
      ∀ s ∈ l, Disjoint cur s := by
  induction l generalizing cur with
  | nil => simp [mergePass]
  | cons s rest ih =>
    by_cases hc : (cur ∩ s).Nonempty
    · simp only [mergePass, if_pos hc] at h
      exact absurd h (by simp)
    · simp only [mergePass, if_neg hc] at h ⊢
      obtain ⟨h1, h2, h3⟩ := ih cur h
      refine ⟨h1, by rw [h2], ?_⟩
      intro t ht
      rcases List.mem_cons.1 ht with h4 | h4
      · subst h4
        rwa [Finset.not_nonempty_iff_eq_empty, ← Finset.disjoint_iff_inter_eq_empty] at hc
      · exact h3 t h4

theorem mergePass_of_disjoint (cur : Finset Int) (l : List (Finset Int))
    (h : ∀ s ∈ l, Disjoint cur s) : mergePass cur l = (cur, l, false) := by
  induction l with
  | nil => simp [mergePass]
  | cons s rest ih =>
    have hc : ¬(cur ∩ s).Nonempty := by
      rw [Finset.not_nonempty_iff_eq_empty, ← Finset.disjoint_iff_inter_eq_empty]
      exact h s (by simp)
    simp only [mergePass, if_neg hc]
    rw [ih fun t ht => h t (by simp [ht])]

theorem mergePass_length_le (cur : Finset Int) (l : List (Finset Int)) :
    (mergePass cur l).2.1.length ≤ l.length := by
  induction l generalizing cur with
  | nil => simp [mergePass]
  | cons s rest ih =>
    simp only [mergePass]
    split
    · exact Nat.le_succ_of_le (ih (cur ∪ s))
    · simpa using Nat.succ_le_succ (ih cur)

theorem mergePass_true_length (cur : Finset Int) (l : List (Finset Int))
    (h : (mergePass cur l).2.2 = true) :
    (mergePass cur l).2.1.length < l.length := by
  induction l generalizing cur with
  | nil => simp [mergePass] at h
  | cons s rest ih =>
    by_cases hc : (cur ∩ s).Nonempty
    · simp only [mergePass, if_pos hc]
      exact Nat.lt_succ_of_le (mergePass_length_le (cur ∪ s) rest)
    · simp only [mergePass, if_neg hc] at h ⊢
      simpa using Nat.succ_lt_succ (ih cur h)

theorem absorbFuel_spec (fuel : Nat) :
    ∀ (l : List (Finset Int)) (cur : Finset Int), l.length < fuel →
      cur ⊆ (absorbFuel fuel cur l).1 ∧
      (∀ s ∈ (absorbFuel fuel cur l).2, s ∈ l) ∧
      (∀ s ∈ l, s ⊆ (absorbFuel fuel cur l).1 ∨ s ∈ (absorbFuel fuel cur l).2) ∧
      (absorbFuel fuel cur l).1 ⊆ cur ∪ listUnion l ∧
      (∀ s ∈ (absorbFuel fuel cur l).2, Disjoint (absorbFuel fuel cur l).1 s) ∧
      (absorbFuel fuel cur l).2.length ≤ l.length := by
  induction fuel with
  | zero => intro l cur h; exact absurd h (by simp)
  | succ fuel ih =>
    intro l cur h
    simp only [absorbFuel]
    by_cases hm : (mergePass cur l).2.2 = true
    · simp only [if_pos hm]
      have hlen : (mergePass cur l).2.1.length < fuel :=
        Nat.lt_of_lt_of_le (mergePass_true_length cur l hm) (Nat.lt_succ_iff.1 h)
      obtain ⟨i1, i2, i3, i4, i5, i6⟩ := ih (mergePass cur l).2.1 (mergePass cur l).1 hlen
      refine ⟨fun v hv => i1 (mergePass_cur_subset cur l hv),
        fun s hs => mergePass_rest_mem cur l s (i2 s hs), ?_, ?_, i5, ?_⟩
      · intro s hs
        rcases mergePass_cover cur l s hs with h1 | h1
        · exact Or.inl fun v hv => i1 (h1 hv)
        · exact i3 s h1
      · intro v hv
        have := i4 hv
        rcases Finset.mem_union.1 this with h1 | h1
        · exact mergePass_result_subset cur l h1
        · exact Finset.mem_union_right _
            (listUnion_subset_listUnion (mergePass_rest_mem cur l) h1)
      · exact Nat.le_trans i6 (mergePass_length_le cur l)
    · rw [Bool.not_eq_true] at hm
      rw [if_neg (by rw [hm]; exact Bool.false_ne_true)]
      obtain ⟨h1, h2, h3⟩ := mergePass_false cur l hm
      rw [h1, h2]
      exact ⟨fun v hv => hv, fun s hs => hs, fun s hs => Or.inr hs,
        fun v hv => Finset.mem_union_left _ hv, h3, Nat.le_refl _⟩

theorem absorb_spec (cur : Finset Int) (l : List (Finset Int)) :
    cur ⊆ (absorb cur l).1 ∧
    (∀ s ∈ (absorb cur l).2, s ∈ l) ∧
    (∀ s ∈ l, s ⊆ (absorb cur l).1 ∨ s ∈ (absorb cur l).2) ∧
    (absorb cur l).1 ⊆ cur ∪ listUnion l ∧
    (∀ s ∈ (absorb cur l).2, Disjoint (absorb cur l).1 s) ∧
    (absorb cur l).2.length ≤ l.length :=
  absorbFuel_spec (l.length + 1) l cur (Nat.lt_succ_self _)

theorem absorb_of_disjoint (cur : Finset Int) (l : List (Finset Int))
    (h : ∀ s ∈ l, Disjoint cur s) : absorb cur l = (cur, l) := by
  unfold absorb absorbFuel
  rw [mergePass_of_disjoint cur l h]
  rfl

theorem mergeSetsFuel_spec (fuel : Nat) :
    ∀ l : List (Finset Int), l.length ≤ fuel →
      (∀ M ∈ mergeSetsFuel fuel l, M ⊆ listUnion l) ∧
      (∀ M ∈ mergeSetsFuel fuel l, ∃ seed ∈ l, seed ⊆ M) ∧
      (∀ s ∈ l, ∃ M ∈ mergeSetsFuel fuel l, s ⊆ M) ∧
      List.Pairwise Disjoint (mergeSetsFuel fuel l) := by
  induction fuel with
  | zero =>
    intro l h
    rw [List.length_eq_zero.1 (Nat.le_zero.1 h)]
    simp [mergeSetsFuel]
  | succ fuel ih =>
    intro l h
    match l with
    | [] => simp [mergeSetsFuel]
    | g :: rest =>
      simp only [mergeSetsFuel]
      obtain ⟨a1, a2, a3, a4, a5, a6⟩ := absorb_spec g rest
      have hr : (absorb g rest).2.length ≤ fuel :=
        Nat.le_trans a6 (Nat.lt_succ_iff.1 (Nat.lt_of_lt_of_le (Nat.lt_succ_self _) h))
      obtain ⟨i1, i2, i3, i4⟩ := ih (absorb g rest).2 hr
      have hsubl : listUnion (absorb g rest).2 ⊆ listUnion rest :=
        listUnion_subset_listUnion a2
      have hcur_sub : (absorb g rest).1 ⊆ listUnion (g :: rest) := by
        intro v hv
        have := a4 hv
        rw [mem_listUnion]
        rcases Finset.mem_union.1 this with h1 | h1
        · exact ⟨g, by simp, h1⟩
        · rw [mem_listUnion] at h1
          obtain ⟨t, ht, hvt⟩ := h1
          exact ⟨t, by simp [ht], hvt⟩
      refine ⟨?_, ?_, ?_, ?_⟩
      · intro M hM
        rcases List.mem_cons.1 hM with h1 | h1
        · exact h1 ▸ hcur_sub
        · intro v hv
          have := hsubl (i1 M h1 hv)
          rw [mem_listUnion] at this ⊢
          obtain ⟨t, ht, hvt⟩ := this
          exact ⟨t, by simp [ht], hvt⟩
      · intro M hM
        rcases List.mem_cons.1 hM with h1 | h1
        · exact ⟨g, by simp, h1 ▸ a1⟩
        · obtain ⟨seed, hseed, hsub⟩ := i2 M h1
          exact ⟨seed, by simp [a2 seed hseed], hsub⟩
      · intro s hs
        rcases List.mem_cons.1 hs with h1 | h1
        · exact ⟨(absorb g rest).1, by simp, h1 ▸ a1⟩
        · rcases a3 s h1 with h2 | h2
          · exact ⟨(absorb g rest).1, by simp, h2⟩
          · obtain ⟨M, hM, hsub⟩ := i3 s h2
            exact ⟨M, by simp [hM], hsub⟩
      · refine List.pairwise_cons.2 ⟨?_, i4⟩
        intro M hM
        have hMsub : M ⊆ listUnion (absorb g rest).2 := i1 M hM
        exact Finset.disjoint_of_subset_right hMsub (disjoint_listUnion a5)

theorem mergeSets_spec (l : List (Finset Int)) :
    (∀ M ∈ mergeSets l, M ⊆ listUnion l) ∧
    (∀ M ∈ mergeSets l, ∃ seed ∈ l, seed ⊆ M) ∧
    (∀ s ∈ l, ∃ M ∈ mergeSets l, s ⊆ M) ∧
    List.Pairwise Disjoint (mergeSets l) :=
  mergeSetsFuel_spec l.length l (Nat.le_refl _)

theorem mergeSetsFuel_of_pairwise_disjoint (fuel : Nat) :
    ∀ l : List (Finset Int), l.length ≤ fuel → List.Pairwise Disjoint l →
      mergeSetsFuel fuel l = l := by
  induction fuel with
  | zero =>
    intro l h _
    rw [List.length_eq_zero.1 (Nat.le_zero.1 h)]
    rfl
  | succ fuel ih =>
    intro l h hp
    match l with
    | [] => rfl
    | g :: rest =>
      obtain ⟨hhead, htail⟩ := List.pairwise_cons.1 hp
      simp only [mergeSetsFuel]
      rw [absorb_of_disjoint g rest hhead]
      rw [ih rest (Nat.lt_succ_iff.1 (Nat.lt_of_lt_of_le (Nat.lt_succ_self _) h)) htail]

theorem mergeSets_of_pairwise_disjoint (l : List (Finset Int))
    (hp : List.Pairwise Disjoint l) : mergeSets l = l :=
  mergeSetsFuel_of_pairwise_disjoint l.length l (Nat.le_refl _) hp

/-- In a pairwise-disjoint list, two members sharing an element are equal. -/
theorem eq_of_mem_pairwise_disjoint {l : List (Finset Int)} {M N : Finset Int}
    (hp : List.Pairwise Disjoint l) (hM : M ∈ l) (hN : N ∈ l)
    (hMN : (M ∩ N).Nonempty) : M = N := by
  induction l with
  | nil => exact absurd hM (List.not_mem_nil _)
  | cons g rest ih =>
    obtain ⟨hhead, htail⟩ := List.pairwise_cons.1 hp
    rcases List.mem_cons.1 hM with h1 | h1 <;> rcases List.mem_cons.1 hN with h2 | h2
    · rw [h1, h2]
    · exfalso
      obtain ⟨v, hv⟩ := hMN
      have := hhead N h2
      rw [h1] at hv
      exact Finset.disjoint_left.1 this (Finset.mem_inter.1 hv).1 (Finset.mem_inter.1 hv).2
    · exfalso
      obtain ⟨v, hv⟩ := hMN
      have := hhead M h1
      rw [h2] at hv
      exact Finset.disjoint_left.1 this (Finset.mem_inter.1 hv).2 (Finset.mem_inter.1 hv).1
    · exact ih htail h1 h2

/-! ## Lemmas about id sets and rehydration -/

theorem truthyId_some {f : FileRecord} {v : Int} (h : truthyId f = some v) :
    f.id = some v ∧ v ≠ 0 := by
  match hid : f.id with
  | Option.none => simp [truthyId, hid] at h
  | Option.some w =>
    by_cases hw : w = 0
    · simp [truthyId, hid, hw] at h
    · simp only [truthyId, hid, if_neg hw, Option.some.injEq] at h
      subst h
      exact ⟨rfl, hw⟩

theorem truthyId_of_id {f : FileRecord} {v : Int} (h : f.id = some v) (hv : v ≠ 0) :
    truthyId f = some v := by
  simp [truthyId, h, hv]

theorem mem_groupIdSetFold (g : List FileRecord) :
    ∀ (s0 : Finset Int) (v : Int),
      v ∈ g.foldl
          (fun s f => match truthyId f with | some w => insert w s | none => s) s0 ↔
        v ∈ s0 ∨ ∃ f ∈ g, truthyId f = some v := by
  induction g with
  | nil => simp
  | cons x rest ih =>
    intro s0 v
    simp only [List.foldl_cons]
    match hx : truthyId x with
    | Option.none =>
      rw [ih s0 v]
      constructor
      · rintro (h | ⟨f, hf, hfv⟩)
        · exact Or.inl h
        · exact Or.inr ⟨f, by simp [hf], hfv⟩
      · rintro (h | ⟨f, hf, hfv⟩)
        · exact Or.inl h
        · rcases List.mem_cons.1 hf with h1 | h1
          · subst h1; rw [hx] at hfv; exact absurd hfv (by simp)
          · exact Or.inr ⟨f, h1, hfv⟩
    | Option.some w =>
      rw [ih (insert w s0) v]
      constructor
      · rintro (h | ⟨f, hf, hfv⟩)
        · rcases Finset.mem_insert.1 h with h1 | h1
          · exact Or.inr ⟨x, by simp, by rw [hx, h1]⟩
          · exact Or.inl h1
        · exact Or.inr ⟨f, by simp [hf], hfv⟩
      · rintro (h | ⟨f, hf, hfv⟩)
        · exact Or.inl (Finset.mem_insert_of_mem h)
        · rcases List.mem_cons.1 hf with h1 | h1
          · subst h1
            rw [hx] at hfv
            exact Or.inl (Finset.mem_insert.2 (Or.inl (Option.some.inj hfv).symm))
          · exact Or.inr ⟨f, h1, hfv⟩

theorem mem_groupIdSet {g : List FileRecord} {v : Int} :
    v ∈ groupIdSet g ↔ ∃ f ∈ g, truthyId f = some v := by
  unfold groupIdSet
  rw [mem_groupIdSetFold g ∅ v]
  simp

theorem zero_not_mem_groupIdSet (g : List FileRecord) : (0 : Int) ∉ groupIdSet g := by
  rw [mem_groupIdSet]
  rintro ⟨f, _, hf⟩
  exact (truthyId_some hf).2 rfl

theorem mem_idGroups {groups : List (List FileRecord)} {s : Finset Int} :
    s ∈ idGroups groups ↔ (∃ G ∈ groups, groupIdSet G = s) ∧ s ≠ ∅ := by
  unfold idGroups
  rw [List.mem_filter]
  simp only [List.mem_map, decide_eq_true_eq]

theorem zero_not_mem_listUnion_idGroups (groups : List (List FileRecord)) :
    (0 : Int) ∉ listUnion (idGroups groups) := by
  rw [mem_listUnion]
  rintro ⟨s, hs, h0⟩
  obtain ⟨⟨G, _, hGs⟩, _⟩ := mem_idGroups.1 hs
  rw [← hGs] at h0
  exact zero_not_mem_groupIdSet G h0

theorem idInSet_iff {f : FileRecord} {s : Finset Int} :
    idInSet f s = true ↔ ∃ v, f.id = some v ∧ v ∈ s := by
  unfold idInSet
  match hid : f.id with
  | Option.none => simp
  | Option.some v => simp

theorem mem_rehydrateFold {s : Finset Int} :
    ∀ (l acc : List FileRecord) (f : FileRecord),
      f ∈ l.foldl
          (fun acc g => if idInSet g s ∧ g ∉ acc then acc ++ [g] else acc) acc ↔
        f ∈ acc ∨ (f ∈ l ∧ idInSet f s = true) := by
  intro l
  induction l with
  | nil => simp
  | cons x rest ih =>
    intro acc f
    simp only [List.foldl_cons]
    by_cases hc : idInSet x s ∧ x ∉ acc
    · rw [if_pos hc, ih (acc ++ [x]) f]
      constructor
      · rintro (h | ⟨hf, hfs⟩)
        · rcases List.mem_append.1 h with h1 | h1
          · exact Or.inl h1
          · have : f = x := by simpa using h1
            exact Or.inr ⟨this ▸ List.mem_cons_self _ _, this ▸ hc.1⟩
        · exact Or.inr ⟨List.mem_cons_of_mem _ hf, hfs⟩
      · rintro (h | ⟨hf, hfs⟩)
        · exact Or.inl (List.mem_append_left _ h)
        · rcases List.mem_cons.1 hf with h1 | h1
          · exact Or.inl (List.mem_append_right _ (by simp [h1]))
          · exact Or.inr ⟨h1, hfs⟩
    · rw [if_neg hc, ih acc f]
      constructor
      · rintro (h | ⟨hf, hfs⟩)
        · exact Or.inl h
        · exact Or.inr ⟨List.mem_cons_of_mem _ hf, hfs⟩
      · rintro (h | ⟨hf, hfs⟩)
        · exact Or.inl h
        · rcases List.mem_cons.1 hf with h1 | h1
          · subst h1
            rcases not_and_or.1 hc with h2 | h2
            · exact absurd hfs (by simpa using h2)
            · exact Or.inl (not_not.1 h2)
          · exact Or.inr ⟨h1, hfs⟩

theorem nodup_rehydrateFold {s : Finset Int} :
    ∀ (l acc : List FileRecord), acc.Nodup →
      (l.foldl (fun acc g => if idInSet g s ∧ g ∉ acc then acc ++ [g] else acc) acc).Nodup := by
  intro l
  induction l with
  | nil => intro acc h; simpa using h
  | cons x rest ih =>
    intro acc h
    simp only [List.foldl_cons]
    by_cases hc : idInSet x s ∧ x ∉ acc
    · rw [if_pos hc]
      refine ih (acc ++ [x]) ?_
      rw [List.nodup_append]
      exact ⟨h, List.nodup_singleton x, by simpa using hc.2⟩
    · rw [if_neg hc]
      exact ih acc h

theorem rehydrateFold_skip {s : Finset Int} :
    ∀ (l : List FileRecord), (∀ f ∈ l, idInSet f s = false) →
      ∀ acc, l.foldl (fun acc g => if idInSet g s ∧ g ∉ acc then acc ++ [g] else acc) acc = acc := by
  intro l
  induction l with
  | nil => intro _ acc; rfl
  | cons x rest ih =>
    intro h acc
    simp only [List.foldl_cons]
    rw [if_neg (by simp [h x (List.mem_cons_self x rest)])]
    exact ih (fun f hf => h f (by simp [hf])) acc

theorem rehydrateFold_all {s : Finset Int} :
    ∀ (l : List FileRecord), l.Nodup → (∀ f ∈ l, idInSet f s = true) →
      ∀ acc, (∀ f ∈ l, f ∉ acc) →
      l.foldl (fun acc g => if idInSet g s ∧ g ∉ acc then acc ++ [g] else acc) acc = acc ++ l := by
  intro l
  induction l with
  | nil => intro _ _ acc _; simp
  | cons x rest ih =>
    intro hnd hin acc hnotin
    simp only [List.foldl_cons]
    rw [if_pos ⟨by rw [hin x (by simp)], hnotin x (by simp)⟩]
    rw [ih (List.nodup_cons.1 hnd).2 (fun f hf => hin f (by simp [hf])) (acc ++ [x]) ?_]
    · simp
    · intro f hf
      rw [List.mem_append]
      rintro (h1 | h1)
      · exact hnotin f (by simp [hf]) h1
      · have : f = x := by simpa using h1
        exact (List.nodup_cons.1 hnd).1 (this ▸ hf)

theorem mem_rehydrate {groups : List (List FileRecord)} {s : Finset Int} {f : FileRecord} :
    f ∈ rehydrate groups s ↔ f ∈ groups.flatten ∧ idInSet f s = true := by
  unfold rehydrate
  rw [mem_rehydrateFold groups.flatten [] f]
  simp

theorem nodup_rehydrate (groups : List (List FileRecord)) (s : Finset Int) :
    (rehydrate groups s).Nodup :=
  nodup_rehydrateFold groups.flatten [] List.nodup_nil

theorem mem_merge_iff {groups : List (List FileRecord)} {g : List FileRecord} :
    g ∈ merge_duplicate_groups groups ↔
      ∃ M ∈ mergeSets (idGroups groups), g = rehydrate groups M ∧ 1 < g.length := by
  unfold merge_duplicate_groups
  by_cases hg : groups = []
  · subst hg
    constructor
    · intro h; exact absurd h (by simp)
    · rintro ⟨M, hM, _⟩
      exact absurd hM (by rw [show idGroups [] = [] from rfl]; simp [mergeSets, mergeSetsFuel])
  · rw [if_neg hg, List.mem_filter]
    simp only [List.mem_map, decide_eq_true_eq]
    constructor
    · rintro ⟨⟨M, hM, hg1⟩, hlen⟩
      exact ⟨M, hM, hg1.symm, hlen⟩
    · rintro ⟨M, hM, hg1, hlen⟩
      exact ⟨⟨M, hM, hg1.symm⟩, hlen⟩

/-- Every record in a merger output group has a truthy id.  (Used for C3/C10:
rows with a missing id or id `0` never appear in merged output.) -/
theorem mem_merge_truthy {groups : List (List FileRecord)} {g : List FileRecord}
    {f : FileRecord} (hg : g ∈ merge_duplicate_groups groups) (hf : f ∈ g) :
    ∃ v : Int, v ≠ 0 ∧ f.id = some v ∧ f ∈ groups.flatten := by
  obtain ⟨M, hM, rfl, _⟩ := mem_merge_iff.1 hg
  obtain ⟨hfl, hins⟩ := mem_rehydrate.1 hf
  obtain ⟨v, hv, hvM⟩ := idInSet_iff.1 hins
  refine ⟨v, ?_, hv, hfl⟩
  intro h0
  subst h0
  exact zero_not_mem_listUnion_idGroups groups ((mergeSets_spec (idGroups groups)).1 M hM hvM)

/-- Output groups of the merger are pairwise disjoint at the record level. -/
theorem merge_pairwise_disjoint (groups : List (List FileRecord)) :
    (merge_duplicate_groups groups).Pairwise fun g1 g2 => ∀ f ∈ g1, f ∉ g2 := by
  unfold merge_duplicate_groups
  by_cases hg : groups = []
  · simp [hg]
  · rw [if_neg hg]
    refine List.Pairwise.sublist (List.filter_sublist _) ?_
    refine List.Pairwise.map (rehydrate groups) ?_ (mergeSets_spec (idGroups groups)).2.2.2
    intro M N hMN f hfM hfN
    obtain ⟨_, hM⟩ := mem_rehydrate.1 hfM
    obtain ⟨_, hN⟩ := mem_rehydrate.1 hfN
    obtain ⟨v, hv, hvM⟩ := idInSet_iff.1 hM
    obtain ⟨w, hw, hwN⟩ := idInSet_iff.1 hN
    obtain rfl : v = w := Option.some.inj (hv ▸ hw)
    exact Finset.disjoint_left.1 hMN hvM hwN

/-- C1 (amended): the Group Merger returns pairwise-disjoint groups; two input
groups that share at least one truthy id have all their ids inside a single
merged id partition, and any output group containing a record of either input
group contains every truthy-id record of both.  (The original "combined iff
they share an id" fails in the only-if direction: transitive chains of
overlapping groups are also combined, see the counterexample.) -/
theorem C1_merger_partition (groups : List (List FileRecord)) :
    ((merge_duplicate_groups groups).Pairwise fun g1 g2 => ∀ f ∈ g1, f ∉ g2) ∧
    (∀ s ∈ idGroups groups, ∀ t ∈ idGroups groups, (s ∩ t).Nonempty →
      ∃ M ∈ mergeSets (idGroups groups), s ∪ t ⊆ M) ∧
    (∀ G1 ∈ groups, ∀ G2 ∈ groups, ∀ v : Int,
      (∃ f1 ∈ G1, truthyId f1 = some v) → (∃ f2 ∈ G2, truthyId f2 = some v) →
      ∀ g ∈ merge_duplicate_groups groups, (∃ f0 ∈ g, f0 ∈ G1) →
        ∀ f, (f ∈ G1 ∨ f ∈ G2) → ∀ w, truthyId f = some w → f ∈ g) := by
  obtain ⟨ms1, ms2, ms3, ms4⟩ := mergeSets_spec (idGroups groups)
  have share_subset : ∀ s ∈ idGroups groups, ∀ t ∈ idGroups groups, (s ∩ t).Nonempty →
      ∃ M ∈ mergeSets (idGroups groups), s ∪ t ⊆ M := by
    intro s hs t ht hst
    obtain ⟨Ms, hMs, hsMs⟩ := ms3 s hs
    obtain ⟨Mt, hMt, htMt⟩ := ms3 t ht
    obtain ⟨v, hv⟩ := hst
    have hveq : Ms = Mt := by
      refine eq_of_mem_pairwise_disjoint ms4 hMs hMt ⟨v, Finset.mem_inter.2 ?_⟩
      exact ⟨hsMs (Finset.mem_inter.1 hv).1, htMt (Finset.mem_inter.1 hv).2⟩
    exact ⟨Ms, hMs, Finset.union_subset hsMs (hveq ▸ htMt)⟩
  refine ⟨merge_pairwise_disjoint groups, share_subset, ?_⟩
  intro G1 hG1 G2 hG2 v hv1 hv2 g hg hf0 f hf w hw
  obtain ⟨f1, hf1G, hf1v⟩ := hv1
  obtain ⟨f2, hf2G, hf2v⟩ := hv2
  have hS1 : groupIdSet G1 ∈ idGroups groups := by
    rw [mem_idGroups]
    refine ⟨⟨G1, hG1, rfl⟩, ?_⟩
    intro hemp
    have : v ∈ groupIdSet G1 := mem_groupIdSet.2 ⟨f1, hf1G, hf1v⟩
    rw [hemp] at this
    exact absurd this (Finset.not_mem_empty v)
  have hS2 : groupIdSet G2 ∈ idGroups groups := by
    rw [mem_idGroups]
    refine ⟨⟨G2, hG2, rfl⟩, ?_⟩
    intro hemp
    have : v ∈ groupIdSet G2 := mem_groupIdSet.2 ⟨f2, hf2G, hf2v⟩
    rw [hemp] at this
    exact absurd this (Finset.not_mem_empty v)
  obtain ⟨M0, hM0, hsub0⟩ := share_subset _ hS1 _ hS2
    ⟨v, Finset.mem_inter.2 ⟨mem_groupIdSet.2 ⟨f1, hf1G, hf1v⟩,
      mem_groupIdSet.2 ⟨f2, hf2G, hf2v⟩⟩⟩
  obtain ⟨M, hM, hgM, _⟩ := mem_merge_iff.1 hg
  obtain ⟨f0, hf0g, hf0G1⟩ := hf0
  obtain ⟨hf0fl, hf0in⟩ := mem_rehydrate.1 (hgM ▸ hf0g)
  obtain ⟨v0, hv0id, hv0M⟩ := idInSet_iff.1 hf0in
  have hv0ne : v0 ≠ 0 := by
    intro h0
    subst h0
    exact zero_not_mem_listUnion_idGroups groups (ms1 M hM hv0M)
  have hv0S1 : v0 ∈ groupIdSet G1 :=
    mem_groupIdSet.2 ⟨f0, hf0G1, truthyId_of_id hv0id hv0ne⟩
  have hMM0 : M = M0 :=
    eq_of_mem_pairwise_disjoint ms4 hM hM0
      ⟨v0, Finset.mem_inter.2 ⟨hv0M, hsub0 (Finset.mem_union_left _ hv0S1)⟩⟩
  have hwM : w ∈ M := by
    rw [hMM0]
    rcases hf with hfG | hfG
    · exact hsub0 (Finset.mem_union_left _ (mem_groupIdSet.2 ⟨f, hfG, hw⟩))
    · exact hsub0 (Finset.mem_union_right _ (mem_groupIdSet.2 ⟨f, hfG, hw⟩))
  rw [hgM]
  refine mem_rehydrate.2 ⟨?_, idInSet_iff.2 ⟨w, (truthyId_some hw).1, hwM⟩⟩
  rcases hf with hfG | hfG
  · exact List.mem_flatten.2 ⟨G1, hG1, hfG⟩
  · exact List.mem_flatten.2 ⟨G2, hG2, hfG⟩

/-- C1 counterexample: the input groups `[w1, w2]` and `[w3, w4]` share no id,
yet the merger combines them (through the chain via `[w2, w3]`) into one output
group — refuting "two input groups are combined iff they share at least one id". -/
theorem C1_counterexample :
    (∀ f1 ∈ [w1, w2], ∀ f2 ∈ [w3, w4], f1.id ≠ f2.id) ∧
    merge_duplicate_groups [[w1, w2], [w2, w3], [w3, w4]] = [[w1, w2, w3, w4]] ∧
    w1 ∈ [w1, w2, w3, w4] ∧ w4 ∈ [w1, w2, w3, w4] := by decide

/-- Witness for C1: concrete instantiation of the amended theorem. -/
theorem C1_witness : w3 ∈ ([w1, w2, w3] : List FileRecord) :=
  (C1_merger_partition [[w1, w2], [w2, w3]]).2.2 [w1, w2] (by decide) [w2, w3] (by decide) 2
    ⟨w2, by decide, by decide⟩ ⟨w2, by decide, by decide⟩ [w1, w2, w3] (by decide)
    ⟨w1, by decide, by decide⟩ w3 (Or.inr (by decide)) 3 (by decide)

/-! ## Idempotence of the merger -/

theorem groupIdSet_rehydrate {groups : List (List FileRecord)} {M : Finset Int}
    (hM : M ∈ mergeSets (idGroups groups)) :
    groupIdSet (rehydrate groups M) = M := by
  apply Finset.ext
  intro v
  constructor
  · intro hv
    obtain ⟨f, hf, hfv⟩ := mem_groupIdSet.1 hv
    obtain ⟨_, hins⟩ := mem_rehydrate.1 hf
    obtain ⟨w, hw, hwM⟩ := idInSet_iff.1 hins
    obtain rfl : v = w := Option.some.inj ((truthyId_some hfv).1.symm.trans hw)
    exact hwM
  · intro hv
    have hvU : v ∈ listUnion (idGroups groups) := (mergeSets_spec _).1 M hM hv
    obtain ⟨s, hs, hvs⟩ := mem_listUnion.1 hvU
    obtain ⟨⟨G, hG, hGs⟩, _⟩ := mem_idGroups.1 hs
    obtain ⟨f, hfG, hfv⟩ := mem_groupIdSet.1 (show v ∈ groupIdSet G by rw [hGs]; exact hvs)
    refine mem_groupIdSet.2 ⟨f, ?_, hfv⟩
    exact mem_rehydrate.2 ⟨List.mem_flatten.2 ⟨G, hG, hfG⟩,
      idInSet_iff.2 ⟨v, (truthyId_some hfv).1, hv⟩⟩

theorem mergeSets_ne_empty {groups : List (List FileRecord)} :
    ∀ M ∈ mergeSets (idGroups groups), M ≠ ∅ := by
  intro M hM hemp
  obtain ⟨seed, hseed, hsub⟩ := (mergeSets_spec _).2.1 M hM
  obtain ⟨_, hne⟩ := mem_idGroups.1 hseed
  exact hne (Finset.subset_empty.1 (hemp ▸ hsub))

/-- The merger output written as a map over the surviving merged id sets. -/
theorem merge_eq_map_filter (groups : List (List FileRecord)) (hg : groups ≠ []) :
    merge_duplicate_groups groups =
      ((mergeSets (idGroups groups)).filter
        (fun M => decide (1 < (rehydrate groups M).length))).map (rehydrate groups) := by
  unfold merge_duplicate_groups
  rw [if_neg hg, List.filter_map]
  rfl

theorem rehydrate_merge_eq {groups : List (List FileRecord)} (hg : groups ≠ [])
    {M : Finset Int}
    (hM : M ∈ (mergeSets (idGroups groups)).filter
        (fun M => decide (1 < (rehydrate groups M).length))) :
    rehydrate (merge_duplicate_groups groups) M = rehydrate groups M := by
  have hMmem : M ∈ mergeSets (idGroups groups) := (List.mem_filter.1 hM).1
  have hdisj : List.Pairwise Disjoint
      ((mergeSets (idGroups groups)).filter
        (fun M => decide (1 < (rehydrate groups M).length))) :=
    List.Pairwise.sublist (List.filter_sublist _) (mergeSets_spec (idGroups groups)).2.2.2
  obtain ⟨m1, m2, hdec⟩ := List.append_of_mem hM
  have hd1 : ∀ N ∈ m1, Disjoint N M := by
    intro N hN
    have := (List.pairwise_append.1 (hdec ▸ hdisj)).2.2
    exact this N hN M (List.mem_cons_self _ _)
  have hd2 : ∀ N ∈ m2, Disjoint M N := by
    have := List.pairwise_cons.1 (List.pairwise_append.1 (hdec ▸ hdisj)).2.1
    exact this.1
  have hflat : (merge_duplicate_groups groups).flatten =
      (m1.map (rehydrate groups)).flatten ++
        (rehydrate groups M ++ (m2.map (rehydrate groups)).flatten) := by
    rw [merge_eq_map_filter groups hg, hdec]
    simp
  unfold rehydrate
  rw [hflat, List.foldl_append, List.foldl_append]
  have hskip1 : ∀ f ∈ (m1.map (rehydrate groups)).flatten, idInSet f M = false := by
    intro f hf
    obtain ⟨gg, hgg, hfgg⟩ := List.mem_flatten.1 hf
    obtain ⟨N, hN, rfl⟩ := List.mem_map.1 hgg
    rw [Bool.eq_false_iff]
    intro htrue
    obtain ⟨v, hv, hvM⟩ := idInSet_iff.1 htrue
    obtain ⟨_, hinsN⟩ := mem_rehydrate.1 hfgg
    obtain ⟨w, hw, hwN⟩ := idInSet_iff.1 hinsN
    obtain rfl : v = w := Option.some.inj (hv ▸ hw)
    exact Finset.disjoint_left.1 (hd1 N hN) hwN hvM
  rw [rehydrateFold_skip _ hskip1 []]
  have hall : ∀ f ∈ rehydrate groups M, idInSet f M = true := fun f hf =>
    (mem_rehydrate.1 hf).2
  rw [rehydrateFold_all _ (nodup_rehydrate groups M) hall [] (by simp)]
  rw [List.nil_append]
  apply rehydrateFold_skip
  intro f hf
  obtain ⟨gg, hgg, hfgg⟩ := List.mem_flatten.1 hf
  obtain ⟨N, hN, rfl⟩ := List.mem_map.1 hgg
  rw [Bool.eq_false_iff]
  intro htrue
  obtain ⟨v, hv, hvM⟩ := idInSet_iff.1 htrue
  obtain ⟨_, hinsN⟩ := mem_rehydrate.1 hfgg
  obtain ⟨w, hw, hwN⟩ := idInSet_iff.1 hinsN
  obtain rfl : v = w := Option.some.inj (hv ▸ hw)
  exact Finset.disjoint_left.1 (hd2 N hN) hvM hwN

/-- C4: the Group Merger is idempotent — applying `_merge_duplicate_groups` to
its own output returns the very same list of groups. -/
theorem C4_merger_idempotent (groups : List (List FileRecord)) :
    merge_duplicate_groups (merge_duplicate_groups groups) = merge_duplicate_groups groups := by
  by_cases hg0 : groups = []
  · subst hg0; rfl
  by_cases hout : merge_duplicate_groups groups = []
  · rw [hout]; rfl
  have hdisj : List.Pairwise Disjoint
      ((mergeSets (idGroups groups)).filter
        (fun M => decide (1 < (rehydrate groups M).length))) :=
    List.Pairwise.sublist (List.filter_sublist _) (mergeSets_spec (idGroups groups)).2.2.2
  have hfil_mem : ∀ M ∈ (mergeSets (idGroups groups)).filter
      (fun M => decide (1 < (rehydrate groups M).length)), M ∈ mergeSets (idGroups groups) :=
    fun M hM => (List.mem_filter.1 hM).1
  have hid_out : idGroups (merge_duplicate_groups groups) =
      (mergeSets (idGroups groups)).filter
        (fun M => decide (1 < (rehydrate groups M).length)) := by
    have h1 : idGroups (merge_duplicate_groups groups) =
        ((merge_duplicate_groups groups).map groupIdSet).filter
          (fun s => decide (s ≠ ∅)) := rfl
    rw [h1, merge_eq_map_filter groups hg0, List.map_map]
    rw [List.map_congr_left
      (fun M hM => show (groupIdSet ∘ rehydrate groups) M = id M from
        groupIdSet_rehydrate (hfil_mem M hM))]
    rw [List.map_id]
    rw [List.filter_eq_self.2]
    intro M hM
    exact decide_eq_true (mergeSets_ne_empty M (hfil_mem M hM))
  rw [merge_eq_map_filter _ hout, hid_out,
    mergeSets_of_pairwise_disjoint _ hdisj]
  rw [List.filter_congr
    (fun M hM => by rw [rehydrate_merge_eq hg0 hM])]
  rw [List.filter_eq_self.2 (fun M hM => (List.mem_filter.1 hM).2)]
  rw [List.map_congr_left (fun M hM => rehydrate_merge_eq hg0 hM)]
  rw [← merge_eq_map_filter groups hg0]

/-! ## C3 and C10: exclusion of records without a truthy id -/

/-- C3 (amended): the Group Merger — and therefore the combined detection —
never outputs a record whose `id` is missing; the individual detection
strategies, however, do not exclude such records (see the counterexample). -/
theorem C3_missing_id_excluded (groups : List (List FileRecord)) (tol : ℚ)
    (files : List FileRecord) (um uh us : Bool) :
    (∀ g ∈ merge_duplicate_groups groups, ∀ f ∈ g, f.id ≠ Option.none) ∧
    (∀ g ∈ find_duplicates_combined tol files um uh us, ∀ f ∈ g, f.id ≠ Option.none) := by
  constructor
  · intro g hg f hf
    obtain ⟨v, _, hv, _⟩ := mem_merge_truthy hg hf
    rw [hv]
    simp
  · intro g hg f hf
    have hcomb : find_duplicates_combined tol files um uh us =
        merge_duplicate_groups
          ((if um then find_duplicates_by_metadata tol files defaultFields else [])
            ++ (if uh then find_duplicates_by_hash files else [])
            ++ (if us then find_duplicates_by_size_and_duration files else [])) := rfl
    rw [hcomb] at hg
    obtain ⟨v, _, hv, _⟩ := mem_merge_truthy hg hf
    rw [hv]
    simp

/-- C3 counterexample: the hash strategy groups two records that both lack an
id — refuting "records lacking an id are excluded from matching by every
detection strategy". -/
theorem C3_counterexample :
    find_duplicates_by_hash [nid1, nid2] = [[nid1, nid2]] ∧
    nid1.id = Option.none ∧ nid2.id = Option.none ∧ nid1 ≠ nid2 := by decide

/-- Witness for C3: concrete instantiation of the amended theorem. -/
theorem C3_witness : hA.id ≠ Option.none :=
  (C3_missing_id_excluded [] 0 [hA, hB] false true false).2
    [hA, hB] (by decide) hA (by decide)

/-- C10: a record whose id is the integer `0` is silently excluded from every
group output by `_merge_duplicate_groups` (its truthiness test drops id `0`),
and hence from every `find_duplicates_combined` result. -/
theorem C10_zero_id_excluded (groups : List (List FileRecord)) (tol : ℚ)
    (files : List FileRecord) (um uh us : Bool) :
    (∀ g ∈ merge_duplicate_groups groups, ∀ f ∈ g, f.id ≠ some 0) ∧
    (∀ g ∈ find_duplicates_combined tol files um uh us, ∀ f ∈ g, f.id ≠ some 0) := by
  constructor
  · intro g hg f hf
    obtain ⟨v, hv0, hv, _⟩ := mem_merge_truthy hg hf
    rw [hv]
    intro h
    exact hv0 (Option.some.inj h)
  · intro g hg f hf
    have hcomb : find_duplicates_combined tol files um uh us =
        merge_duplicate_groups
          ((if um then find_duplicates_by_metadata tol files defaultFields else [])
            ++ (if uh then find_duplicates_by_hash files else [])
            ++ (if us then find_duplicates_by_size_and_duration files else [])) := rfl
    rw [hcomb] at hg
    obtain ⟨v, hv0, hv, _⟩ := mem_merge_truthy hg hf
    rw [hv]
    intro h
    exact hv0 (Option.some.inj h)

/-- Witness for C10: the zero-id record `z0` is dropped from the merged group
even though its input group contains it. -/
theorem C10_witness : w1.id ≠ some 0 :=
  (C10_zero_id_excluded [[w1, w2], [w2, z0]] 0 [] false false false).1
    [w1, w2] (by decide) w1 (by decide)

/-! ## Quality ranking and statistics -/

theorem keyLe_total (x y : Int × Int) : keyLe x y ∨ keyLe y x := by
  unfold keyLe
  rcases lt_trichotomy x.1 y.1 with h | h | h
  · exact Or.inl (Or.inl h)
  · rcases le_total x.2 y.2 with h2 | h2
    · exact Or.inl (Or.inr ⟨h, h2⟩)
    · exact Or.inr (Or.inr ⟨h.symm, h2⟩)
  · exact Or.inr (Or.inl h)

theorem keyLe_trans (x y z : Int × Int) (h1 : keyLe x y) (h2 : keyLe y z) : keyLe x z := by
  unfold keyLe at h1 h2 ⊢
  rcases h1 with h1 | ⟨h1, h1a⟩ <;> rcases h2 with h2 | ⟨h2, h2a⟩
  · exact Or.inl (h1.trans h2)
  · exact Or.inl (h2 ▸ h1)
  · exact Or.inl (h1 ▸ h2)
  · exact Or.inr ⟨h1.trans h2, h1a.trans h2a⟩

/-- The head of an insertion sort by a total transitive relation is related to
every element, and the tail has one element fewer. -/
theorem insertionSort_head_spec (r : FileRecord → FileRecord → Prop) [DecidableRel r]
    (htot : ∀ x y, r x y ∨ r y x)
    (htrans : ∀ x y z, r x y → r y z → r x z)
    (g : List FileRecord) (hne : g ≠ []) :
    ∃ m rest, List.insertionSort r g = m :: rest ∧ m ∈ g ∧
      (∀ x ∈ g, r m x) ∧ rest.length = g.length - 1 := by
  haveI : IsTotal FileRecord r := ⟨htot⟩
  haveI : IsTrans FileRecord r := ⟨fun a b c => htrans a b c⟩
  have hperm := List.perm_insertionSort r g
  have hsorted := List.sorted_insertionSort r g
  match hs : List.insertionSort r g, hperm, hsorted with
  | [], hperm, _ =>
    exact absurd (List.Perm.eq_nil hperm.symm) hne
  | m :: rest, hperm, hsorted =>
    obtain ⟨hhead, _⟩ := List.sorted_cons.1 hsorted
    refine ⟨m, rest, rfl, hperm.mem_iff.1 (List.mem_cons_self m rest), ?_, ?_⟩
    · intro x hx
      rcases List.mem_cons.1 (hperm.mem_iff.2 hx) with h | h
      · subst h
        exact (htot x x).elim id id
      · exact hhead x h
    · have := hperm.length_eq
      simp only [List.length_cons] at this
      omega

/-- C8: `filter_duplicates_by_quality` keeps exactly one record maximal (resp.
minimal, for `keep_highest = false`) in the lexicographic `(bitrate, file_size)`
order, and removes the remaining `len(group) - 1` records. -/
theorem C8_filter_quality (g : List FileRecord) (hne : g ≠ []) :
    (∃ m, (filter_duplicates_by_quality g true).1 = [m] ∧ m ∈ g ∧
      (∀ x ∈ g, keyLe (qualityKey x) (qualityKey m))) ∧
    (filter_duplicates_by_quality g true).2.length = g.length - 1 ∧
    (∃ m, (filter_duplicates_by_quality g false).1 = [m] ∧ m ∈ g ∧
      (∀ x ∈ g, keyLe (qualityKey m) (qualityKey x))) ∧
    (filter_duplicates_by_quality g false).2.length = g.length - 1 := by
  obtain ⟨m1, r1, hs1, hm1, hmax1, hlen1⟩ :=
    insertionSort_head_spec (fun f f2 => keyLe (qualityKey f2) (qualityKey f))
      (fun x y => Or.symm (keyLe_total (qualityKey x) (qualityKey y)))
      (fun x y z h1 h2 => keyLe_trans _ _ _ h2 h1) g hne
  obtain ⟨m2, r2, hs2, hm2, hmin2, hlen2⟩ :=
    insertionSort_head_spec (fun f f2 => keyLe (qualityKey f) (qualityKey f2))
      (fun x y => keyLe_total (qualityKey x) (qualityKey y))
      (fun x y z h1 h2 => keyLe_trans _ _ _ h1 h2) g hne
  have hq1 : filter_duplicates_by_quality g true =
      ((m1 :: r1).take 1, (m1 :: r1).drop 1) := by
    unfold filter_duplicates_by_quality
    rw [if_neg hne]
    show ((List.insertionSort (fun f f2 => keyLe (qualityKey f2) (qualityKey f)) g).take 1,
      (List.insertionSort (fun f f2 => keyLe (qualityKey f2) (qualityKey f)) g).drop 1) = _
    rw [hs1]
  have hq2 : filter_duplicates_by_quality g false =
      ((m2 :: r2).take 1, (m2 :: r2).drop 1) := by
    unfold filter_duplicates_by_quality
    rw [if_neg hne]
    show ((List.insertionSort (fun f f2 => keyLe (qualityKey f) (qualityKey f2)) g).take 1,
      (List.insertionSort (fun f f2 => keyLe (qualityKey f) (qualityKey f2)) g).drop 1) = _
    rw [hs2]
  refine ⟨⟨m1, by rw [hq1]; rfl, hm1, hmax1⟩, by rw [hq1]; exact hlen1,
    ⟨m2, by rw [hq2]; rfl, hm2, hmin2⟩, by rw [hq2]; exact hlen2⟩

/-- Witness for C8. -/
theorem C8_witness :
    (filter_duplicates_by_quality [q1, q2] true).2.length = [q1, q2].length - 1 :=
  (C8_filter_quality [q1, q2] (by decide)).2.1

theorem foldl_add_sum {α : Type} (f : α → Int) :
    ∀ (l : List α) (a : Int), l.foldl (fun acc x => acc + f x) a = a + (l.map f).sum := by
  intro l
  induction l with
  | nil => intro a; simp
  | cons x rest ih =>
    intro a
    simp only [List.foldl_cons, List.map_cons, List.sum_cons]
    rw [ih (a + f x)]
    ring

theorem wastedOfGroup_eq (g : List FileRecord) :
    wastedOfGroup g = sumSizes g - maxSize g := by
  by_cases hne : g = []
  · subst hne
    rfl
  · obtain ⟨m, rest, hs, hm, hmax, _⟩ :=
      insertionSort_head_spec (fun f f2 => f2.file_size ≤ f.file_size)
        (fun x y => Or.symm (le_total x.file_size y.file_size))
        (fun x y z h1 h2 => le_trans h2 h1) g hne
    have hperm : (m :: rest).Perm g := hs ▸ List.perm_insertionSort _ g
    have hsum : sumSizes g = m.file_size + (rest.map FileRecord.file_size).sum := by
      unfold sumSizes
      rw [← List.Perm.sum_eq (hperm.map FileRecord.file_size)]
      simp
    have hmaxeq : maxSize g = m.file_size := by
      haveI : Std.Antisymm ((· : Int) ≤ ·) := ⟨fun h1 h2 => le_antisymm h1 h2⟩
      unfold maxSize
      have : (g.map FileRecord.file_size).max? = some m.file_size := by
        rw [List.max?_eq_some_iff (fun a => le_refl a) (fun a b => max_choice a b)
          (fun a b c => max_le_iff)]
        constructor
        · exact List.mem_map.2 ⟨m, hm, rfl⟩
        · intro b hb
          obtain ⟨x, hx, rfl⟩ := List.mem_map.1 hb
          exact hmax x hx
      rw [this]
      rfl
    have hw : wastedOfGroup g = (rest.map FileRecord.file_size).sum := by
      unfold wastedOfGroup pySortedBySizeDesc
      rw [hs]
      show rest.foldl (fun acc f => acc + f.file_size) 0 = _
      rw [foldl_add_sum FileRecord.file_size rest 0]
      ring
    rw [hw, hsum, hmaxeq]
    ring

/-- C9: the statistics aggregator returns the group count, the summed group
sizes, their difference as `total_files`, and as wasted space the per-group sum
of sizes excluding the single largest; in particular the 10 MB/5 MB/3 MB
scenario yields 8 MiB wasted and `total_files = 2`. -/
theorem C9_statistics :
    (∀ groups : List (List FileRecord),
      (get_duplicate_statistics groups).total_groups = groups.length ∧
      (get_duplicate_statistics groups).total_duplicates = (groups.map List.length).sum ∧
      (get_duplicate_statistics groups).total_files =
        ((groups.map List.length).sum : Int) - (groups.length : Int) ∧
      (get_duplicate_statistics groups).wasted_space_bytes =
        (groups.map (fun g => sumSizes g - maxSize g)).sum) ∧
    (get_duplicate_statistics [[s10, s5, s3]]).wasted_space_bytes = 8 * 1024 * 1024 ∧
    (get_duplicate_statistics [[s10, s5, s3]]).total_files = 2 := by
  refine ⟨?_, by decide, by decide⟩
  intro groups
  refine ⟨rfl, rfl, rfl, ?_⟩
  show groups.foldl (fun acc g => acc + wastedOfGroup g) 0 = _
  rw [foldl_add_sum wastedOfGroup groups 0]
  rw [List.map_congr_left fun g _ => wastedOfGroup_eq g]
  simp

/-! ## Similarity scorer symmetry and error handling -/

/-- C7 counterexample: `SequenceMatcher`-based similarity is not symmetric —
`similarity("ab", "bacb") = 2/3` but `similarity("bacb", "ab") = 1/3` (the
greedy block matching finds two matched characters in one direction and only
one in the other). -/
theorem C7_counterexample :
    calculate_similarity "ab" "bacb" ≠ calculate_similarity "bacb" "ab" := by
  have h1 : matchSum (pyLower "ab").data (pyLower "bacb").data = 2 := by decide
  have h2 : matchSum (pyLower "bacb").data (pyLower "ab").data = 1 := by decide
  have hl1 : (pyLower "ab").data.length = 2 := by decide
  have hl2 : (pyLower "bacb").data.length = 4 := by decide
  unfold calculate_similarity
  rw [if_neg (by decide), if_neg (by decide)]
  unfold ratio
  rw [if_pos (by rw [hl1, hl2]; norm_num), if_pos (by rw [hl2, hl1]; norm_num)]
  rw [h1, h2, hl1, hl2]
  norm_num

/-- C7 amended: the scorer is not symmetric in general (see the
counterexample); it is symmetric whenever either argument is empty, both
directions returning `0`. -/
theorem C7_empty_symmetric (a b : String) (h : a = "" ∨ b = "") :
    calculate_similarity a b = calculate_similarity b a := by
  unfold calculate_similarity
  rcases h with h | h <;> subst h
  · rw [if_pos (Or.inl rfl), if_pos (Or.inr rfl)]
  · rw [if_pos (Or.inr rfl), if_pos (Or.inl rfl)]

/-- Witness for C7's amended theorem. -/
theorem C7_witness : calculate_similarity "" "xyz" = calculate_similarity "xyz" "" :=
  C7_empty_symmetric "" "xyz" (Or.inl rfl)

/-- C6: a non-numeric `duration` value reaching the comparison of lines 91-96
raises `TypeError` (Python does not coerce `'3:45' - 200`), contradicting the
spec's requirement that malformed fields be treated as their default value. -/
theorem C6_duration_type_error :
    durationCheckDyn (PyVal.str "3:45") (PyVal.int 200) =
      Except.error "TypeError: unsupported operand type for -" := rfl

/-! ## The metadata pair condition equals the spec's wording -/

theorem pyCharLower_idem (c : Char) : pyCharLower (pyCharLower c) = pyCharLower c := by
  unfold pyCharLower
  by_cases h : 65 ≤ c.toNat ∧ c.toNat ≤ 90
  · rw [if_pos h]
    obtain ⟨h1, h2⟩ := h
    have hval : (Char.ofNat (c.toNat + 32)).toNat = c.toNat + 32 := by
      generalize c.toNat = n at h1 h2
      interval_cases n <;> decide
    rw [hval, if_neg (by omega)]
  · rw [if_neg h, if_neg h]

theorem pyLower_idem (s : String) : pyLower (pyLower s) = pyLower s := by
  apply String.ext
  show ((s.data.map pyCharLower).map pyCharLower) = s.data.map pyCharLower
  rw [List.map_map]
  exact List.map_congr_left fun c _ => pyCharLower_idem c

theorem pyLower_eq_empty_iff (s : String) : pyLower s = "" ↔ s = "" := by
  rw [String.ext_iff, String.ext_iff]
  show s.data.map pyCharLower = "".data ↔ _
  rw [show ("" : String).data = [] from rfl, List.map_eq_nil_iff]

theorem calculate_similarity_lower (s t : String) :
    calculate_similarity (pyLower s) (pyLower t) = calculate_similarity s t := by
  unfold calculate_similarity
  apply if_congr
  · rw [pyLower_eq_empty_iff, pyLower_eq_empty_iff]
  · rfl
  · rw [pyLower_idem, pyLower_idem]

theorem fieldsMatch_iff_spec (tol : ℚ) (f1 f2 : FileRecord) :
    ∀ fields : List MetaField,
      fieldsMatch tol f1 f2 fields = true ↔
        ∀ fld ∈ fields,
          pyStrip (f1.getField fld) ≠ "" ∧ pyStrip (f2.getField fld) ≠ "" ∧
            tol ≤ calculate_similarity (pyStrip (f1.getField fld))
              (pyStrip (f2.getField fld)) := by
  intro fields
  induction fields with
  | nil => simp [fieldsMatch]
  | cons fld rest ih =>
    unfold fieldsMatch metaFieldVal
    by_cases hemp : pyStrip (f1.getField fld) = "" ∨ pyStrip (f2.getField fld) = ""
    · rw [if_pos (by rwa [pyLower_eq_empty_iff, pyLower_eq_empty_iff])]
      constructor
      · intro h
        exact absurd h (by simp)
      · intro hall
        exfalso
        obtain ⟨hne1, hne2, _⟩ := hall fld (List.mem_cons_self fld rest)
        rcases hemp with h | h
        · exact hne1 h
        · exact hne2 h
    · rw [if_neg (by rwa [pyLower_eq_empty_iff, pyLower_eq_empty_iff])]
      rw [calculate_similarity_lower]
      by_cases hlt : calculate_similarity (pyStrip (f1.getField fld))
          (pyStrip (f2.getField fld)) < tol
      · rw [if_pos hlt]
        simp only [Bool.false_eq_true, false_iff]
        intro hall
        obtain ⟨_, _, hge⟩ := hall fld (List.mem_cons_self fld rest)
        exact absurd hge (not_le.2 hlt)
      · rw [if_neg hlt, ih]
        push_neg at hemp
        constructor
        · intro hrest fld2 hfld2
          rcases List.mem_cons.1 hfld2 with h | h
          · subst h
            exact ⟨hemp.1, hemp.2, not_lt.1 hlt⟩
          · exact hrest fld2 h
        · intro hall fld2 hfld2
          exact hall fld2 (List.mem_cons_of_mem _ hfld2)

theorem durationOk_iff_spec (f1 f2 : FileRecord) :
    durationOk f1 f2 = true ↔
      ∀ d1 d2 : ℚ, f1.duration = some d1 → f2.duration = some d2 → |d1 - d2| ≤ 5 := by
  rcases h1 : f1.duration with _ | d1 <;> rcases h2 : f2.duration with _ | d2
  · simp [durationOk, h1, h2]
  · simp [durationOk, h1, h2]
  · simp [durationOk, h1, h2]
  · simp only [durationOk, h1, h2, Bool.not_eq_true', decide_eq_false_iff_not,
      not_lt, Option.some.injEq]
    constructor
    · rintro h x y rfl rfl
      exact h
    · intro h
      exact h d1 d2 rfl rfl

theorem isDuplicatePair_iff_spec (tol : ℚ) (fields : List MetaField)
    (f1 f2 : FileRecord) :
    isDuplicatePair tol fields f1 f2 = true ↔ specPairMatch tol fields f1 f2 := by
  unfold isDuplicatePair specPairMatch
  rw [Bool.and_eq_true, fieldsMatch_iff_spec, durationOk_iff_spec]

/-! ## Structure of the metadata strategy's greedy scan -/

theorem scanCandidates_processed_subset (tol : ℚ) (fields : List MetaField)
    (f1 : FileRecord) :
    ∀ (l : List FileRecord) (p : Finset (Option Int)),
      p ⊆ (scanCandidates tol fields f1 l p).2 := by
  intro l
  induction l with
  | nil => intro p x hx; exact hx
  | cons f2 rest ih =>
    intro p
    by_cases hmem : f2.id ∈ p
    · rw [scanCandidates, if_pos hmem]
      exact ih p
    · by_cases hdup : isDuplicatePair tol fields f1 f2
      · rw [scanCandidates, if_neg hmem, if_pos hdup]
        exact fun x hx => ih (insert f2.id p) (Finset.mem_insert_of_mem hx)
      · rw [scanCandidates, if_neg hmem, if_neg hdup]
        exact ih p

theorem scanCandidates_mem_processed (tol : ℚ) (fields : List MetaField)
    (f1 : FileRecord) :
    ∀ (l : List FileRecord) (p : Finset (Option Int)),
      ∀ f ∈ (scanCandidates tol fields f1 l p).1,
        f.id ∈ (scanCandidates tol fields f1 l p).2 := by
  intro l
  induction l with
  | nil => intro p f hf; exact absurd hf (List.not_mem_nil f)
  | cons f2 rest ih =>
    intro p f hf
    by_cases hmem : f2.id ∈ p
    · rw [scanCandidates, if_pos hmem] at hf ⊢
      exact ih p f hf
    · by_cases hdup : isDuplicatePair tol fields f1 f2
      · rw [scanCandidates, if_neg hmem, if_pos hdup] at hf ⊢
        rcases List.mem_cons.1 hf with h | h
        · subst h
          exact scanCandidates_processed_subset tol fields f1 rest (insert f.id p)
            (Finset.mem_insert_self f.id p)
        · exact ih (insert f2.id p) f h
      · rw [scanCandidates, if_neg hmem, if_neg hdup] at hf ⊢
        exact ih p f hf

theorem scanCandidates_fresh (tol : ℚ) (fields : List MetaField) (f1 : FileRecord) :
    ∀ (l : List FileRecord) (p : Finset (Option Int)),
      ∀ f ∈ (scanCandidates tol fields f1 l p).1, f.id ∉ p := by
  intro l
  induction l with
  | nil => intro p f hf; exact absurd hf (List.not_mem_nil f)
  | cons f2 rest ih =>
    intro p f hf
    by_cases hmem : f2.id ∈ p
    · rw [scanCandidates, if_pos hmem] at hf
      exact ih p f hf
    · by_cases hdup : isDuplicatePair tol fields f1 f2
      · rw [scanCandidates, if_neg hmem, if_pos hdup] at hf
        rcases List.mem_cons.1 hf with h | h
        · subst h
          exact hmem
        · intro hp
          exact ih (insert f2.id p) f h (Finset.mem_insert_of_mem hp)
      · rw [scanCandidates, if_neg hmem, if_neg hdup] at hf
        exact ih p f hf

theorem scanCandidates_sublist (tol : ℚ) (fields : List MetaField) (f1 : FileRecord) :
    ∀ (l : List FileRecord) (p : Finset (Option Int)),
      (scanCandidates tol fields f1 l p).1.Sublist l := by
  intro l
  induction l with
  | nil => intro p; exact List.Sublist.refl []
  | cons f2 rest ih =>
    intro p
    by_cases hmem : f2.id ∈ p
    · rw [scanCandidates, if_pos hmem]
      exact List.Sublist.cons f2 (ih p)
    · by_cases hdup : isDuplicatePair tol fields f1 f2
      · rw [scanCandidates, if_neg hmem, if_pos hdup]
        exact List.Sublist.cons₂ f2 (ih (insert f2.id p))
      · rw [scanCandidates, if_neg hmem, if_neg hdup]
        exact List.Sublist.cons f2 (ih p)

theorem metaLoop_fresh (tol : ℚ) (fields : List MetaField) :
    ∀ (l : List FileRecord) (p : Finset (Option Int)),
      ∀ G ∈ metaLoop tol fields l p, ∀ f ∈ G, f.id ∉ p := by
  intro l
  induction l with
  | nil => intro p G hG; exact absurd hG (List.not_mem_nil G)
  | cons f1 rest ih =>
    intro p G hG f hf
    by_cases hmem : f1.id ∈ p
    · rw [metaLoop, if_pos hmem] at hG
      exact ih p G hG f hf
    · by_cases hres : (scanCandidates tol fields f1 rest p).1.isEmpty
      · rw [metaLoop, if_neg hmem, if_pos hres] at hG
        intro hp
        exact ih (scanCandidates tol fields f1 rest p).2 G hG f hf
          (scanCandidates_processed_subset tol fields f1 rest p hp)
      · rw [metaLoop, if_neg hmem, if_neg hres] at hG
        rcases List.mem_cons.1 hG with h | h
        · subst h
          rcases List.mem_cons.1 hf with h1 | h1
          · subst h1
            exact hmem
          · exact scanCandidates_fresh tol fields f1 rest p f h1
        · intro hp
          exact ih (insert f1.id (scanCandidates tol fields f1 rest p).2) G h f hf
            (Finset.mem_insert_of_mem
              (scanCandidates_processed_subset tol fields f1 rest p hp))

theorem metaLoop_groups_sub (tol : ℚ) (fields : List MetaField) :
    ∀ (l : List FileRecord) (p : Finset (Option Int)),
      ∀ G ∈ metaLoop tol fields l p, G.Sublist l ∧ 1 < G.length := by
  intro l
  induction l with
  | nil => intro p G hG; exact absurd hG (List.not_mem_nil G)
  | cons f1 rest ih =>
    intro p G hG
    by_cases hmem : f1.id ∈ p
    · rw [metaLoop, if_pos hmem] at hG
      obtain ⟨h1, h2⟩ := ih p G hG
      exact ⟨List.Sublist.cons f1 h1, h2⟩
    · by_cases hres : (scanCandidates tol fields f1 rest p).1.isEmpty
      · rw [metaLoop, if_neg hmem, if_pos hres] at hG
        obtain ⟨h1, h2⟩ := ih _ G hG
        exact ⟨List.Sublist.cons f1 h1, h2⟩
      · rw [metaLoop, if_neg hmem, if_neg hres] at hG
        rcases List.mem_cons.1 hG with h | h
        · subst h
          refine ⟨List.Sublist.cons₂ f1 (scanCandidates_sublist tol fields f1 rest p), ?_⟩
          have : (scanCandidates tol fields f1 rest p).1 ≠ [] := by
            intro hnil
            rw [hnil] at hres
            exact hres rfl
          match he : (scanCandidates tol fields f1 rest p).1 with
          | [] => exact absurd he this
          | x :: xs => simp
        · obtain ⟨h1, h2⟩ := ih _ G h
          exact ⟨List.Sublist.cons f1 h1, h2⟩

theorem metaLoop_pairwise (tol : ℚ) (fields : List MetaField) :
    ∀ (l : List FileRecord) (p : Finset (Option Int)),
      (metaLoop tol fields l p).Pairwise
        (fun G1 G2 => ∀ g1 ∈ G1, ∀ g2 ∈ G2, g1.id ≠ g2.id) := by
  intro l
  induction l with
  | nil => intro p; exact List.Pairwise.nil
  | cons f1 rest ih =>
    intro p
    by_cases hmem : f1.id ∈ p
    · rw [metaLoop, if_pos hmem]
      exact ih p
    · by_cases hres : (scanCandidates tol fields f1 rest p).1.isEmpty
      · rw [metaLoop, if_neg hmem, if_pos hres]
        exact ih _
      · rw [metaLoop, if_neg hmem, if_neg hres]
        refine List.pairwise_cons.2 ⟨?_, ih _⟩
        intro G2 hG2 g1 hg1 g2 hg2
        have hg2fresh : g2.id ∉ insert f1.id (scanCandidates tol fields f1 rest p).2 :=
          metaLoop_fresh tol fields rest _ G2 hG2 g2 hg2
        intro heq
        apply hg2fresh
        rw [← heq]
        rcases List.mem_cons.1 hg1 with h | h
        · subst h
          exact Finset.mem_insert_self _ _
        · exact Finset.mem_insert_of_mem
            (scanCandidates_mem_processed tol fields f1 rest p g1 h)

/-- C2: the per-pair duplicate test of `find_duplicates_by_metadata` holds iff
the spec's condition does (all configured fields non-empty after trimming with
similarity ≥ tolerance, and durations within 5 seconds when both present), and
the greedy single-pass scan yields groups with pairwise-disjoint id sets, so an
assigned record is never reconsidered for another group. -/
theorem C2_metadata_matching (tol : ℚ) (fields : List MetaField)
    (f1 f2 : FileRecord) (files : List FileRecord) :
    (isDuplicatePair tol fields f1 f2 = true ↔ specPairMatch tol fields f1 f2) ∧
    (find_duplicates_by_metadata tol files fields).Pairwise
      (fun G1 G2 => ∀ g1 ∈ G1, ∀ g2 ∈ G2, g1.id ≠ g2.id) :=
  ⟨isDuplicatePair_iff_spec tol fields f1 f2, metaLoop_pairwise tol fields files ∅⟩

/-! ## C5: group size and identity invariants -/

theorem insertGroup_vals {κ : Type} [DecidableEq κ] (k : κ) (f : FileRecord) :
    ∀ (m : List (κ × List FileRecord)) (done : List FileRecord),
      (∀ kv ∈ m, kv.2.Sublist done) →
      ∀ kv ∈ insertGroup m k f, kv.2.Sublist (done ++ [f]) := by
  intro m
  induction m with
  | nil =>
    intro done _ kv hkv
    obtain rfl : kv = (k, [f]) := by simpa [insertGroup] using hkv
    exact List.sublist_append_right done [f]
  | cons kg rest ih =>
    intro done hall kv hkv
    by_cases hk : kg.1 = k
    · rw [show insertGroup (kg :: rest) k f = (kg.1, kg.2 ++ [f]) :: rest by
        rw [insertGroup, if_pos hk]] at hkv
      rcases List.mem_cons.1 hkv with h | h
      · subst h
        exact (hall kg (List.mem_cons_self kg rest)).append (List.Sublist.refl [f])
      · exact ((hall kv (List.mem_cons_of_mem _ h)).trans
          (List.sublist_append_left done [f]))
    · rw [show insertGroup (kg :: rest) k f = kg :: insertGroup rest k f by
        rw [insertGroup, if_neg hk]] at hkv
      rcases List.mem_cons.1 hkv with h | h
      · subst h
        exact ((hall kv (List.mem_cons_self kv rest)).trans
          (List.sublist_append_left done [f]))
      · exact ih done (fun kv2 hkv2 => hall kv2 (List.mem_cons_of_mem _ hkv2)) kv h

theorem buildDict_vals {κ : Type} [DecidableEq κ] (keyOf : FileRecord → Option κ) :
    ∀ (l : List FileRecord) (m : List (κ × List FileRecord)) (done : List FileRecord),
      (∀ kv ∈ m, kv.2.Sublist done) →
      ∀ kv ∈ buildDict keyOf l m, kv.2.Sublist (done ++ l) := by
  intro l
  induction l with
  | nil =>
    intro m done hall kv hkv
    rw [List.append_nil]
    exact hall kv hkv
  | cons f rest ih =>
    intro m done hall kv hkv
    have happ : done ++ f :: rest = (done ++ [f]) ++ rest := by simp
    rw [happ]
    match hk : keyOf f with
    | Option.none =>
      rw [buildDict, hk] at hkv
      exact ih m (done ++ [f])
        (fun kv2 hkv2 => (hall kv2 hkv2).trans (List.sublist_append_left done [f]))
        kv hkv
    | Option.some k =>
      rw [buildDict, hk] at hkv
      exact ih (insertGroup m k f) (done ++ [f]) (insertGroup_vals k f m done hall) kv hkv

theorem hash_groups_sub (files : List FileRecord) :
    ∀ g ∈ find_duplicates_by_hash files, g.Sublist files ∧ 1 < g.length := by
  intro g hg
  unfold find_duplicates_by_hash at hg
  obtain ⟨hmem, hlen⟩ := List.mem_filter.1 hg
  obtain ⟨kv, hkv, rfl⟩ := List.mem_map.1 hmem
  refine ⟨?_, by simpa using hlen⟩
  have := buildDict_vals truthyHash files [] [] (by simp) kv hkv
  simpa using this

theorem size_groups_sub (files : List FileRecord) :
    ∀ g ∈ find_duplicates_by_size_and_duration files, g.Sublist files ∧ 1 < g.length := by
  intro g hg
  unfold find_duplicates_by_size_and_duration at hg
  obtain ⟨hmem, hlen⟩ := List.mem_filter.1 hg
  obtain ⟨kv, hkv, rfl⟩ := List.mem_map.1 hmem
  refine ⟨?_, by simpa using hlen⟩
  have := buildDict_vals sizeDurKey files [] [] (by simp) kv hkv
  simpa using this

theorem pairwise_id_ne_of_mem {l : List FileRecord}
    (h : l.Pairwise fun a b => a.id ≠ b.id) :
    ∀ a ∈ l, ∀ b ∈ l, a ≠ b → a.id ≠ b.id := by
  induction l with
  | nil => intro a ha; exact absurd ha (List.not_mem_nil a)
  | cons x rest ih =>
    obtain ⟨hhead, htail⟩ := List.pairwise_cons.1 h
    intro a ha b hb hab
    rcases List.mem_cons.1 ha with h1 | h1 <;> rcases List.mem_cons.1 hb with h2 | h2
    · exact absurd (h1.trans h2.symm) hab
    · exact h1 ▸ hhead b h2
    · exact fun he => (h2 ▸ hhead a h1) he.symm
    · exact ih htail a h1 b h2 hab

/-- C5 (amended): when the input records carry pairwise-distinct `id` values,
every group produced by each detection strategy and by the combined detection
has size ≥ 2 and contains no two records with the same id.  (Without the
distinctness assumption the property fails, see the counterexample.) -/
theorem C5_group_invariants (files : List FileRecord) (tol : ℚ)
    (fields : List MetaField) (um uh us : Bool)
    (hids : files.Pairwise fun a b => a.id ≠ b.id) :
    (∀ g ∈ find_duplicates_by_metadata tol files fields,
      2 ≤ g.length ∧ g.Pairwise fun a b => a.id ≠ b.id) ∧
    (∀ g ∈ find_duplicates_by_hash files,
      2 ≤ g.length ∧ g.Pairwise fun a b => a.id ≠ b.id) ∧
    (∀ g ∈ find_duplicates_by_size_and_duration files,
      2 ≤ g.length ∧ g.Pairwise fun a b => a.id ≠ b.id) ∧
    (∀ g ∈ find_duplicates_combined tol files um uh us,
      2 ≤ g.length ∧ g.Pairwise fun a b => a.id ≠ b.id) := by
  refine ⟨?_, ?_, ?_, ?_⟩
  · intro g hg
    obtain ⟨hsub, hlen⟩ := metaLoop_groups_sub tol fields files ∅ g hg
    exact ⟨hlen, hids.sublist hsub⟩
  · intro g hg
    obtain ⟨hsub, hlen⟩ := hash_groups_sub files g hg
    exact ⟨hlen, hids.sublist hsub⟩
  · intro g hg
    obtain ⟨hsub, hlen⟩ := size_groups_sub files g hg
    exact ⟨hlen, hids.sublist hsub⟩
  · intro g hg
    have hcomb : find_duplicates_combined tol files um uh us =
        merge_duplicate_groups
          ((if um then find_duplicates_by_metadata tol files defaultFields else [])
            ++ (if uh then find_duplicates_by_hash files else [])
            ++ (if us then find_duplicates_by_size_and_duration files else [])) := rfl
    rw [hcomb] at hg
    have hall_sub : ∀ G ∈
        (if um then find_duplicates_by_metadata tol files defaultFields else [])
          ++ (if uh then find_duplicates_by_hash files else [])
          ++ (if us then find_duplicates_by_size_and_duration files else []),
        G.Sublist files := by
      intro G hG
      rcases List.mem_append.1 hG with h | h
      · rcases List.mem_append.1 h with h1 | h1
        · rcases um with _ | _
          · simp at h1
          · exact (metaLoop_groups_sub tol defaultFields files ∅ G (by simpa using h1)).1
        · rcases uh with _ | _
          · simp at h1
          · exact (hash_groups_sub files G (by simpa using h1)).1
      · rcases us with _ | _
        · simp at h
        · exact (size_groups_sub files G (by simpa using h)).1
    obtain ⟨M, hM, rfl, hlen⟩ := mem_merge_iff.1 hg
    refine ⟨hlen, ?_⟩
    have hnd := nodup_rehydrate
      ((if um then find_duplicates_by_metadata tol files defaultFields else [])
        ++ (if uh then find_duplicates_by_hash files else [])
        ++ (if us then find_duplicates_by_size_and_duration files else [])) M
    refine List.Pairwise.imp_of_mem ?_ hnd
    intro a b ha hb hab
    obtain ⟨hafl, _⟩ := mem_rehydrate.1 ha
    obtain ⟨hbfl, _⟩ := mem_rehydrate.1 hb
    obtain ⟨Ga, hGa, haGa⟩ := List.mem_flatten.1 hafl
    obtain ⟨Gb, hGb, hbGb⟩ := List.mem_flatten.1 hbfl
    exact pairwise_id_ne_of_mem hids a ((hall_sub Ga hGa).subset haGa)
      b ((hall_sub Gb hGb).subset hbGb) hab

/-- C5 counterexample: the hash strategy groups two distinct records that share
the id `7`, so a returned group can contain two records with the same id (and
the same happens for metadata matching); the invariant as stated over all
input lists is false. -/
theorem C5_counterexample :
    find_duplicates_by_hash [dup1, dup2] = [[dup1, dup2]] ∧
    dup1.id = dup2.id ∧ dup1 ≠ dup2 := by decide

/-- Witness for C5: concrete instantiation of the amended theorem. -/
theorem C5_witness :
    2 ≤ ([hA, hB] : List FileRecord).length ∧
      ([hA, hB] : List FileRecord).Pairwise (fun a b => a.id ≠ b.id) :=
  (C5_group_invariants [hA, hB] 0 defaultFields false true false (by decide)).2.1
    [hA, hB] (by decide)

end MusicDup
